import Mathlib

/-!
Verification of the kikuo speech-synthesis pipeline.

This file gives a shallow embedding, in Lean 4, of the pure core of the
repository: the dialogue/narration script parsers (`src/readers/script_parser.py`
and the dialect-normalizing `parse_dialogue` of `app.py`), the pydub-based audio
assembly (`src/audio/processor.py`, `src/audio/track_builder.py`), the WAV
combiners and the dialogue-synthesis orchestration (`src/tts/gemini_tts.py`,
`app.py`), and the voice manager (`src/tts/voice_manager.py`).

Audio is modelled at a resolution of one 16-bit sample per millisecond:
a pydub `AudioSegment` becomes a `List Int` whose length is the duration in
milliseconds; `AudioSegment.silent(n)` is `n` zero samples, `+` is list append,
and `overlay` mixes sample-wise with saturation at the 16-bit bounds, exactly
as pydub mixes via `audioop.add`, truncating the overlaid layer at the end of
the base segment (pydub's overlay never grows the base).  Floating-point
operations (dBFS normalisation, dB gain, fades) are not modelled sample-wise;
where a claim only depends on them being length-preserving they are passed in
as abstract length-preserving functions.
-/

set_option maxRecDepth 4000

namespace Kikuo

/-! ## Audio sample model -/

/-- A pydub AudioSegment, at one 16-bit sample per millisecond. -/
abbrev Samples := List Int

/-- Saturation of a mixed sample at the 16-bit signed bounds, as audioop.add does. -/
def clamp16 (x : Int) : Int := max (-32768) (min 32767 x)

/-- pydub AudioSegment.silent(duration=n): n milliseconds of zero samples. -/
def silent (n : Nat) : Samples := List.replicate n 0

/-- pydub base.overlay(layer, position=pos): sample-wise mixing of layer into
base starting at pos; the layer is truncated at the end of base (pydub overlay
never extends the base segment). -/
def overlayAt (base layer : Samples) (pos : Nat) : Samples :=
  base.take pos
    ++ List.zipWith (fun b l => clamp16 (b + l)) (base.drop pos) layer
    ++ (base.drop (pos + layer.length))

theorem overlayAt_length (base layer : Samples) (pos : Nat) :
    (overlayAt base layer pos).length = base.length := by
  simp only [overlayAt, List.length_append, List.length_zipWith, List.length_take,
    List.length_drop]
  omega

/-! ## AudioProcessor (src/audio/processor.py) -/

namespace AudioProcessor

/-- AudioProcessor.concatenate: empty input gives the empty segment, otherwise
start from the first segment and append each following one. -/
def concatenate : List Samples → Samples
  | [] => []
  | s :: rest => rest.foldl (fun result segment => result ++ segment) s

/-- AudioProcessor.insert_silence_between: start from the first segment and,
for each following segment, append silence of the given duration and then the
segment. -/
def insert_silence_between (segments : List Samples) (silence_ms : Nat) : Samples :=
  match segments with
  | [] => []
  | s :: rest => rest.foldl (fun result segment => result ++ (silent silence_ms ++ segment)) s

theorem foldl_append_join {α β : Type} (f : β → List α) (rest : List β) (init : List α) :
    rest.foldl (fun result segment => result ++ f segment) init
      = init ++ (rest.map f).flatten := by
  induction rest generalizing init with
  | nil => simp
  | cons h t ih => simp [ih, List.append_assoc]

theorem insert_silence_between_eq_join (s : Samples) (rest : List Samples) (g : Nat) :
    insert_silence_between (s :: rest) g
      = s ++ (rest.map (fun segment => silent g ++ segment)).flatten := by
  simp [insert_silence_between, foldl_append_join]

theorem concatenate_eq_join (s : Samples) (rest : List Samples) :
    concatenate (s :: rest) = s ++ rest.flatten := by
  have h := foldl_append_join id rest s
  simpa [concatenate] using h

end AudioProcessor

/-! ## The two WAV-combining implementations of the Gemini dialogue path -/

/-- GeminiTTS._combine_audio_files (src/tts/gemini_tts.py): start from the empty
segment and, for every file, append the segment followed by 300 ms of silence —
the pause is appended after every segment, including the last. -/
def combine_audio_files (files : List Samples) : Samples :=
  files.foldl (fun combined segment => combined ++ (segment ++ silent 300)) []

/-- WAV parameters taken from the first input file in combine_wav_files. -/
structure WavParams where
  nchannels : Nat
  sampwidth : Nat
  framerate : Nat

/-- The silence byte count of combine_wav_files (app.py):
int(params.framerate * 0.3) * params.nchannels * params.sampwidth.
The float expression int(framerate * 0.3) equals framerate * 3 / 10 in exact
arithmetic; at the 24000 Hz rate this app produces the float computation also
rounds to exactly 7200, so the Nat division is faithful there. -/
def silenceBytes (p : WavParams) : Nat := (p.framerate * 3 / 10) * p.nchannels * p.sampwidth

/-- combine_wav_files (app.py), at the level of the raw frame bytes written:
for every input file write its frames and then the silence block — after every
file, including the last. -/
def combine_wav_files (p : WavParams) (files : List (List Nat)) : List Nat :=
  files.foldl (fun out f => out ++ (f ++ List.replicate (silenceBytes p) 0)) []

/-- The parameters of the WAV segments this app writes: mono, 16-bit, 24000 Hz. -/
def appWavParams : WavParams := ⟨1, 2, 24000⟩

theorem combine_audio_files_eq_join (files : List Samples) :
    combine_audio_files files = (files.map (fun segment => segment ++ silent 300)).flatten := by
  have h := AudioProcessor.foldl_append_join (fun segment => segment ++ silent 300) files []
  simpa [combine_audio_files] using h

theorem combine_wav_files_eq_join (p : WavParams) (files : List (List Nat)) :
    combine_wav_files p files
      = (files.map (fun f => f ++ List.replicate (silenceBytes p) 0)).flatten := by
  have h := AudioProcessor.foldl_append_join
    (fun f => f ++ List.replicate (silenceBytes p) 0) files []
  simpa [combine_wav_files] using h

theorem length_flatten_map_add {α : Type} (k : Nat) (f : List α → List α)
    (hf : ∀ x, (f x).length = x.length + k) (files : List (List α)) :
    ((files.map f).flatten).length = (files.map List.length).sum + files.length * k := by
  induction files with
  | nil => simp
  | cons b t ih =>
    simp only [List.map_cons, List.flatten_cons, List.length_append, List.sum_cons,
      List.length_cons, ih, hf]
    ring

/-- Claim C8: insert_silence_between inserts silence of the given length between
every adjacent pair of buffers and never before the first or after the last, so
for n ≥ 1 buffers its total length is the sum of the buffer lengths plus
(n−1)·gap; with gap 0 it degenerates to plain concatenation. -/
theorem claim_C8_insert_silence_between (bufs : List Samples) (g : Nat) (h : bufs ≠ []) :
    (AudioProcessor.insert_silence_between bufs g).length
        = (bufs.map List.length).sum + (bufs.length - 1) * g
    ∧ AudioProcessor.insert_silence_between bufs g
        = bufs.head h ++ ((bufs.tail.map (fun segment => silent g ++ segment)).flatten)
    ∧ AudioProcessor.insert_silence_between bufs 0 = AudioProcessor.concatenate bufs
    ∧ (AudioProcessor.insert_silence_between [bufs.head h, silent 7, silent 9] 300).length
        = (bufs.head h).length + 7 + 9 + 2 * 300 := by
  obtain ⟨s, rest, rfl⟩ : ∃ s rest, bufs = s :: rest := by
    cases bufs with
    | nil => exact absurd rfl h
    | cons s rest => exact ⟨s, rest, rfl⟩
  refine ⟨?_, ?_, ?_, ?_⟩
  · rw [AudioProcessor.insert_silence_between_eq_join]
    have hlen := length_flatten_map_add g (fun segment => silent g ++ segment)
      (fun x => by simp [silent, Nat.add_comm]) rest
    simp only [List.length_append, hlen, List.map_cons, List.sum_cons, List.length_cons,
      Nat.add_sub_cancel]
    ring
  · simp [AudioProcessor.insert_silence_between_eq_join]
  · rw [AudioProcessor.insert_silence_between_eq_join, AudioProcessor.concatenate_eq_join]
    simp [silent]
  · rw [AudioProcessor.insert_silence_between_eq_join]
    simp [silent]

/-- Witness for claim C8 at a concrete input. -/
theorem claim_C8_insert_silence_between_witness :
    ([[1, 2], [3], [4, 5, 6]] : List Samples) ≠ []
    ∧ (AudioProcessor.insert_silence_between [[1, 2], [3], [4, 5, 6]] 300).length
        = ([[1, 2], [3], [4, 5, 6]].map List.length).sum + (3 - 1) * 300 := by
  refine ⟨by decide, ?_⟩
  have h := claim_C8_insert_silence_between [[1, 2], [3], [4, 5, 6]] 300 (by decide)
  simpa using h.1

/-- Claim C10: both WAV-combining implementations of the Gemini dialogue path
append the 300 ms inter-segment silence after every segment including the last:
the pydub-based combiner produces sum of segment durations plus n·300 ms, the
wave-module combiner (at this app's mono/16-bit/24000 Hz parameters) produces
sum of frame-byte counts plus n·14400 silence bytes (= n·300 ms of frames), and
a non-empty combined output always ends in the 300 ms silence block. -/
theorem claim_C10_trailing_silence :
    (∀ files : List Samples,
        (combine_audio_files files).length = (files.map List.length).sum + files.length * 300)
    ∧ (∀ files : List (List Nat),
        (combine_wav_files appWavParams files).length
          = (files.map List.length).sum + files.length * 14400)
    ∧ (∀ files : List Samples, files ≠ [] →
        ∃ front, combine_audio_files files = front ++ silent 300) := by
  refine ⟨?_, ?_, ?_⟩
  · intro files
    rw [combine_audio_files_eq_join]
    exact length_flatten_map_add 300 (fun segment => segment ++ silent 300)
      (fun x => by simp [silent]) files
  · intro files
    rw [combine_wav_files_eq_join]
    have hsb : silenceBytes appWavParams = 14400 := by decide
    have h := length_flatten_map_add (silenceBytes appWavParams)
      (fun f => f ++ List.replicate (silenceBytes appWavParams) 0)
      (fun x => by simp) files
    rw [hsb] at h
    exact h
  · intro files hne
    obtain ⟨t, last, rfl⟩ : ∃ t last, files = t ++ [last] := by
      rcases List.eq_nil_or_concat files with h | h
      · exact absurd h hne
      · obtain ⟨t, last, h2⟩ := h
        exact ⟨t, last, by simpa [List.concat_eq_append] using h2⟩
    refine ⟨combine_audio_files t ++ last, ?_⟩
    rw [combine_audio_files_eq_join, combine_audio_files_eq_join]
    simp [List.append_assoc]

/-- Witness for claim C10 at a concrete input. -/
theorem claim_C10_trailing_silence_witness :
    ∃ front, combine_audio_files [[5, 6]] = front ++ silent 300 :=
  claim_C10_trailing_silence.2.2 [[5, 6]] (by decide)

/-! ## TrackBuilder (src/audio/track_builder.py) -/

/-- An audio clip with timing information (AudioClip dataclass). -/
structure AudioClip where
  audio : Samples
  start_ms : Nat := 0
  label : String := ""

/-- Insert one clip into a list already sorted by start_ms, before the first
clip with a strictly larger-or-equal start: combined with insertion from the
right this realises exactly Python's stable sorted(clips, key=start_ms). -/
def insertByStart (c : AudioClip) : List AudioClip → List AudioClip
  | [] => [c]
  | d :: ds => if d.start_ms < c.start_ms then d :: insertByStart c ds else c :: d :: ds

/-- Python sorted(clips, key=lambda c: c.start_ms): stable sort by start_ms. -/
def sortByStart (clips : List AudioClip) : List AudioClip :=
  clips.foldr insertByStart []

/-- max(clip.start_ms + len(clip.audio) for clip in clips) — 0 when empty. -/
def maxEnd (clips : List AudioClip) : Nat :=
  (clips.map (fun c => c.start_ms + c.audio.length)).foldl max 0

/-- TrackBuilder.build without the optional trailing normalize step (that step
is a floating-point dBFS gain, length-preserving; it is not sample-modelled):
allocate silence of length max_end and overlay each clip at its start_ms, in
ascending start_ms order with insertion order as tie-break. -/
def build_raw (clips : List AudioClip) : Samples :=
  match clips with
  | [] => []
  | _ :: _ =>
    (sortByStart clips).foldl (fun result c => overlayAt result c.audio c.start_ms)
      (silent (maxEnd clips))

theorem foldl_overlay_length (cs : List AudioClip) (init : Samples) :
    (cs.foldl (fun result c => overlayAt result c.audio c.start_ms) init).length
      = init.length := by
  induction cs generalizing init with
  | nil => rfl
  | cons c t ih => simp [ih, overlayAt_length]

theorem build_raw_length (clips : List AudioClip) :
    (build_raw clips).length = if clips.isEmpty then 0 else maxEnd clips := by
  cases clips with
  | nil => rfl
  | cons c t =>
    simp [build_raw, foldl_overlay_length, silent]

theorem sortByStart_sorted (clips : List AudioClip) :
    List.Pairwise (fun c d => c.start_ms ≤ d.start_ms) (sortByStart clips) := by
  have key : ∀ (c : AudioClip) (l : List AudioClip),
      List.Pairwise (fun c d => c.start_ms ≤ d.start_ms) l →
      List.Pairwise (fun c d => c.start_ms ≤ d.start_ms) (insertByStart c l)
      ∧ ∀ e ∈ insertByStart c l, e = c ∨ e ∈ l := by
    intro c l hl
    induction l with
    | nil => simp [insertByStart]
    | cons d ds ih =>
      rcases List.pairwise_cons.mp hl with ⟨hd, hds⟩
      obtain ⟨ih1, ih2⟩ := ih hds
      by_cases hlt : d.start_ms < c.start_ms
      · refine ⟨?_, ?_⟩
        · simp only [insertByStart, if_pos hlt]
          refine List.pairwise_cons.mpr ⟨?_, ih1⟩
          intro e he
          rcases ih2 e he with rfl | he2
          · exact Nat.le_of_lt hlt
          · exact hd e he2
        · intro e he
          simp only [insertByStart, if_pos hlt, List.mem_cons] at he
          rcases he with rfl | he
          · exact Or.inr (List.mem_cons_self _ _)
          · rcases ih2 e he with rfl | he2
            · exact Or.inl rfl
            · exact Or.inr (List.mem_cons_of_mem _ he2)
      · refine ⟨?_, ?_⟩
        · simp only [insertByStart, if_neg hlt]
          refine List.pairwise_cons.mpr ⟨?_, hl⟩
          intro e he
          rcases List.mem_cons.mp he with rfl | he2
          · exact Nat.le_of_not_lt hlt
          · exact Nat.le_trans (Nat.le_of_not_lt hlt) (hd e he2)
        · intro e he
          simp only [insertByStart, if_neg hlt, List.mem_cons] at he
          rcases he with rfl | he
          · exact Or.inl rfl
          · exact Or.inr (List.mem_cons.mpr he)
  induction clips with
  | nil => simp [sortByStart]
  | cons c t ih =>
    have := (key c (sortByStart t) ih).1
    simpa [sortByStart] using this

theorem sortByStart_of_sorted (clips : List AudioClip)
    (h : List.Pairwise (fun c d => c.start_ms ≤ d.start_ms) clips) :
    sortByStart clips = clips := by
  induction clips with
  | nil => rfl
  | cons c t ih =>
    rcases List.pairwise_cons.mp h with ⟨hc, ht⟩
    have hrec : sortByStart t = t := ih ht
    show insertByStart c (sortByStart t) = c :: t
    rw [hrec]
    cases t with
    | nil => rfl
    | cons d ds =>
      have : ¬ d.start_ms < c.start_ms :=
        Nat.not_lt.mpr (hc d (List.mem_cons_self _ _))
      simp [insertByStart, this]

theorem zipWith_replicate_left {α β γ : Type} (f : α → β → γ) (c : α) :
    ∀ (m : Nat) (l : List β), List.zipWith f (List.replicate m c) l = (l.take m).map (f c)
  | 0, l => by simp
  | _ + 1, [] => by simp
  | m + 1, b :: t => by
    simp [List.replicate_succ, zipWith_replicate_left f c m t]

/-- Claim C5, counterexample: two one-sample clips at start_ms 0, samples 600
then 500; pydub overlay mixes, so the built content is the clipped sample sum
1100 and not the last-inserted clip's 500. -/
theorem claim_C5_counterexample :
    build_raw [⟨[600], 0, ""⟩, ⟨[500], 0, ""⟩] = [1100]
    ∧ build_raw [⟨[600], 0, ""⟩, ⟨[500], 0, ""⟩] ≠ [500] := by
  decide

/-- Claim C5 (amended): for every non-empty clip list the built buffer's length
equals the maximum over clips of start_ms + clip length; clips are overlaid in
ascending start_ms order (sortByStart is sorted, and is the identity on
already-ordered lists, so ties keep insertion order); and for two clips at the
same start 0 the overlapped region is the sample-wise clipped sum of the two
clips — later overlays mix with, rather than replace, earlier ones. -/
theorem claim_C5_build (clips : List AudioClip) (h : clips ≠ []) :
    (build_raw clips).length = maxEnd clips
    ∧ List.Pairwise (fun c d => c.start_ms ≤ d.start_ms) (sortByStart clips)
    ∧ (List.Pairwise (fun c d => c.start_ms ≤ d.start_ms) clips → sortByStart clips = clips)
    ∧ ∀ a b : Samples,
        (build_raw [⟨a, 0, ""⟩, ⟨b, 0, ""⟩]).take (min a.length b.length)
          = List.zipWith (fun x y => clamp16 (clamp16 x + y)) a b := by
  refine ⟨?_, sortByStart_sorted clips, sortByStart_of_sorted clips, ?_⟩
  · rw [build_raw_length]
    simp [List.isEmpty_iff, h]
  · intro a b
    have hsort : sortByStart [⟨a, 0, ""⟩, ⟨b, 0, ""⟩] = [⟨a, 0, ""⟩, ⟨b, 0, ""⟩] :=
      sortByStart_of_sorted _ (by simp)
    have hm : maxEnd [⟨a, 0, ""⟩, ⟨b, 0, ""⟩] = max a.length b.length := by
      simp [maxEnd]
    rw [show build_raw [⟨a, 0, ""⟩, ⟨b, 0, ""⟩]
        = overlayAt (overlayAt (silent (max a.length b.length)) a 0) b 0 by
      simp only [build_raw, hsort, hm, List.foldl_cons, List.foldl_nil]]
    have hr1 : overlayAt (silent (max a.length b.length)) a 0
        = a.map clamp16 ++ List.replicate (max a.length b.length - a.length) 0 := by
      simp only [overlayAt, silent, List.take_zero, List.drop_zero, Nat.zero_add,
        List.nil_append, zipWith_replicate_left, List.drop_replicate]
      rw [List.take_of_length_le (by omega)]
      simp
    rw [hr1]
    simp only [overlayAt, List.take_zero, List.drop_zero, Nat.zero_add, List.nil_append]
    rw [List.take_append_of_le_length
      (by simp only [List.length_zipWith, List.length_append, List.length_map,
            List.length_replicate]
          omega)]
    rw [List.take_zipWith]
    rw [List.take_append_of_le_length (by simp only [List.length_map]; omega)]
    rw [← List.map_take, List.zipWith_map_left]
    rw [← List.take_zipWith]
    exact List.take_of_length_le (by simp)

/-- Witness for claim C5 at a concrete input. -/
theorem claim_C5_build_witness :
    (build_raw [⟨[1, 2], 0, ""⟩]).length = maxEnd [⟨[1, 2], 0, ""⟩] :=
  (claim_C5_build [⟨[1, 2], 0, ""⟩] (List.cons_ne_nil _ _)).1

/-- A sample transformation that keeps the buffer duration unchanged. -/
def LengthPreserving (f : Samples → Samples) : Prop := ∀ s : Samples, (f s).length = s.length

/-- Stand-ins for the floating-point pydub operations composed by
build_with_bgm: normalisation of the voice track, the BGM gain shift
(apply_gain), and the fade-in/fade-out pair.  All four only rescale sample
amplitudes, never the duration; the claims proved here use them as abstract
length-preserving functions. -/
structure BgmFx where
  normalizeFn : Samples → Samples
  gainFn : Samples → Samples
  fadeInFn : Samples → Samples
  fadeOutFn : Samples → Samples

/-- pydub bgm * loops_needed: whole-buffer repetition. -/
def repeatSamples (s : Samples) (n : Nat) : Samples := (List.replicate n s).flatten

theorem repeatSamples_length (s : Samples) (n : Nat) :
    (repeatSamples s n).length = n * s.length := by
  simp [repeatSamples, List.length_flatten, List.map_replicate, List.sum_replicate,
    smul_eq_mul]

/-- TrackBuilder.build_with_bgm: build the (normalized) voice track; if the BGM
is shorter than the track, repeat it track_duration // len(bgm) + 1 whole
times; truncate to the track duration; apply gain, fade-in and fade-out in that
order; then overlay the voice track on top of the processed BGM. -/
def build_with_bgm (fx : BgmFx) (clips : List AudioClip) (bgm : Samples) : Samples :=
  let voice_track := fx.normalizeFn (build_raw clips)
  let track_duration := voice_track.length
  let bgm1 := if bgm.length < track_duration
    then repeatSamples bgm (track_duration / bgm.length + 1) else bgm
  let bgm2 := bgm1.take track_duration
  let bgm3 := fx.fadeOutFn (fx.fadeInFn (fx.gainFn bgm2))
  overlayAt bgm3 voice_track 0

/-- Claim C6: for non-empty clips and non-empty BGM, build_with_bgm's output
duration equals the voice track's duration exactly; a shorter BGM is looped in
whole repetitions to reach or exceed the voice-track length before being
truncated to exactly that length; and the output is the sample mix of the
processed BGM — gain, then fade-in, then fade-out, applied to the
looped-and-truncated BGM in that order — with the unattenuated voice track. -/
theorem claim_C6_build_with_bgm (fx : BgmFx) (clips : List AudioClip) (bgm : Samples)
    (_h1 : clips ≠ []) (h2 : bgm ≠ [])
    (hn : LengthPreserving fx.normalizeFn) (hg : LengthPreserving fx.gainFn)
    (hi : LengthPreserving fx.fadeInFn) (ho : LengthPreserving fx.fadeOutFn) :
    (build_with_bgm fx clips bgm).length = (build_raw clips).length
    ∧ (bgm.length < (build_raw clips).length →
        (build_raw clips).length
          ≤ (repeatSamples bgm ((build_raw clips).length / bgm.length + 1)).length)
    ∧ build_with_bgm fx clips bgm
        = List.zipWith (fun x y => clamp16 (x + y))
            (fx.fadeOutFn (fx.fadeInFn (fx.gainFn
              ((if bgm.length < (build_raw clips).length
                then repeatSamples bgm ((build_raw clips).length / bgm.length + 1)
                else bgm).take (build_raw clips).length))))
            (fx.normalizeFn (build_raw clips)) := by
  have hL : 0 < bgm.length := List.length_pos.mpr h2
  have hv : (fx.normalizeFn (build_raw clips)).length = (build_raw clips).length :=
    hn (build_raw clips)
  have hloop : bgm.length < (build_raw clips).length →
      (build_raw clips).length
        ≤ (repeatSamples bgm ((build_raw clips).length / bgm.length + 1)).length := by
    intro _
    rw [repeatSamples_length]
    have hdm := Nat.div_add_mod ((build_raw clips).length) bgm.length
    have hmod : (build_raw clips).length % bgm.length < bgm.length := Nat.mod_lt _ hL
    nlinarith [Nat.zero_le ((build_raw clips).length / bgm.length)]
  have hb1 : (build_raw clips).length
      ≤ (if bgm.length < (build_raw clips).length
          then repeatSamples bgm ((build_raw clips).length / bgm.length + 1)
          else bgm).length := by
    by_cases hlt : bgm.length < (build_raw clips).length
    · rw [if_pos hlt]; exact hloop hlt
    · rw [if_neg hlt]; omega
  have hb3 : (fx.fadeOutFn (fx.fadeInFn (fx.gainFn
      ((if bgm.length < (build_raw clips).length
        then repeatSamples bgm ((build_raw clips).length / bgm.length + 1)
        else bgm).take (build_raw clips).length)))).length = (build_raw clips).length := by
    rw [ho, hi, hg, List.length_take]
    omega
  have hbody : build_with_bgm fx clips bgm
      = List.zipWith (fun x y => clamp16 (x + y))
          (fx.fadeOutFn (fx.fadeInFn (fx.gainFn
            ((if bgm.length < (build_raw clips).length
              then repeatSamples bgm ((build_raw clips).length / bgm.length + 1)
              else bgm).take (build_raw clips).length))))
          (fx.normalizeFn (build_raw clips)) := by
    show overlayAt _ _ 0 = _
    rw [hv]
    rw [overlayAt, List.take_zero, List.drop_zero, Nat.zero_add, List.nil_append, hv,
      List.drop_eq_nil_of_le (by rw [hb3]), List.append_nil]
  refine ⟨?_, hloop, hbody⟩
  rw [hbody]
  rw [List.length_zipWith, hb3, hv, Nat.min_self]

/-- Witness for claim C6 at a concrete input. -/
theorem claim_C6_build_with_bgm_witness :
    (build_with_bgm ⟨id, id, id, id⟩ [⟨[1, 2, 3], 0, ""⟩] [4, 5]).length
      = (build_raw [⟨[1, 2, 3], 0, ""⟩]).length :=
  (claim_C6_build_with_bgm ⟨id, id, id, id⟩ [⟨[1, 2, 3], 0, ""⟩] [4, 5]
    (List.cons_ne_nil _ _) (List.cons_ne_nil _ _)
    (fun _ => rfl) (fun _ => rfl) (fun _ => rfl) (fun _ => rfl)).1

/-! ## Script parser (src/readers/script_parser.py) -/

/-- Whitespace as stripped by Python str.strip() and matched by the regex
class for whitespace, restricted to the characters relevant here: ASCII
whitespace and the ideographic space (Python also covers a few rarer Unicode
space characters). -/
def isPyWs (c : Char) : Bool :=
  c == ' ' || c == '\t' || c == '\n' || c == '\r' || c == '\x0b' || c == '\x0c' || c == '　'

/-- Python s.strip(). -/
def pyStrip (l : List Char) : List Char :=
  ((l.dropWhile isPyWs).reverse.dropWhile isPyWs).reverse

/-- Python content.split on a newline: note the empty string yields one empty
piece, and every newline separates two pieces. -/
def splitNl : List Char → List (List Char)
  | [] => [[]]
  | c :: rest =>
    if c = '\n' then [] :: splitNl rest
    else
      match splitNl rest with
      | [] => [[c]]
      | h :: t => (c :: h) :: t

/-- A half- or full-width colon. -/
def isColon (c : Char) : Bool := c == ':' || c == '：'

/-- re.match of a stripped line against the bracketed speaker pattern
(source patterns 1 and 2): the opening bracket, a non-empty run of characters
other than the closing bracket, the closing bracket, optional whitespace, a
colon, optional whitespace, and a non-empty remainder running to the end of
the line.  Returns the two capture groups. -/
def matchBracketLine (openB closeB : Char) (line : List Char) :
    Option (List Char × List Char) :=
  match line with
  | [] => none
  | c :: rest =>
    if c = openB then
      let g1 := rest.takeWhile (fun d => d != closeB)
      let r1 := rest.dropWhile (fun d => d != closeB)
      if g1.isEmpty then none
      else
        match r1 with
        | [] => none
        | _ :: r2 =>
          match r2.dropWhile isPyWs with
          | [] => none
          | d :: r4 =>
            if isColon d then
              let g2 := r4.dropWhile isPyWs
              if g2.isEmpty then none else some (g1, g2)
            else none
    else none

/-- A colon or bracket character, excluded from the bare speaker name. -/
def isSpecialBare (c : Char) : Bool :=
  c == ':' || c == '：' || c == '[' || c == ']' || c == '【' || c == '】'

/-- re.match of a stripped line against the bare speaker pattern (source
pattern 3): a non-empty colon- and bracket-free speaker run, then — after the
optional whitespace the regex allows — a colon, optional whitespace, and a
non-empty remainder; equivalently the first colon-or-bracket character of the
line is a colon and does not come first. -/
def matchBareLine (line : List Char) : Option (List Char × List Char) :=
  let g1 := line.takeWhile (fun d => !isSpecialBare d)
  let r1 := line.dropWhile (fun d => !isSpecialBare d)
  if g1.isEmpty then none
  else
    match r1 with
    | [] => none
    | d :: r2 =>
      if isColon d then
        let g2 := r2.dropWhile isPyWs
        if g2.isEmpty then none else some (g1, g2)
      else none

/-- The pattern cascade of parse_dialogue_script: the first matching pattern
wins for the line (the source breaks out of the pattern loop on a match). -/
def parseLine (line : List Char) : Option (List Char × List Char) :=
  match matchBracketLine '[' ']' line with
  | some r => some r
  | none =>
    match matchBracketLine '【' '】' line with
    | some r => some r
    | none => matchBareLine line

/-- A single line of dialogue (DialogueLine dataclass). -/
structure DialogueLine where
  speaker : String
  text : String
  line_number : Nat
deriving DecidableEq

/-- Parsed dialogue script (DialogueScript dataclass); the speakers field is a
Python set, modelled as a Finset. -/
structure DialogueScript where
  lines : List DialogueLine
  speakers : Finset String
deriving DecidableEq

/-- Processing of one raw line at 1-based position n: strip; skip blank lines
and lines starting with a hash mark; try the three patterns; strip both
capture groups; emit only when both stripped groups are non-empty. -/
def emitLine (n : Nat) (rawLine : List Char) : Option DialogueLine :=
  let line := pyStrip rawLine
  if line.isEmpty || line.head? == some '#' then none
  else
    match parseLine line with
    | none => none
    | some (g1, g2) =>
      let speaker := pyStrip g1
      let text := pyStrip g2
      if speaker.isEmpty || text.isEmpty then none
      else some ⟨speaker.asString, text.asString, n⟩

/-- One iteration of the parse_dialogue_script loop: on an emitted line,
append it and add its speaker to the speaker set. -/
def dlgStep (acc : List DialogueLine × Finset String) (p : Nat × List Char) :
    List DialogueLine × Finset String :=
  match emitLine (p.1 + 1) p.2 with
  | none => acc
  | some dl => (acc.1 ++ [dl], insert dl.speaker acc.2)

/-- The parsing body of parse_dialogue_script (source lines 49-76), applied to
the script text once the Path branch has resolved it: split on newlines,
enumerate from 1, and fold the per-line step. -/
def parseDialogueText (content : String) : DialogueScript :=
  let r := ((splitNl content.data).enum).foldl dlgStep ([], ∅)
  ⟨r.1, r.2⟩

/-- What the filesystem holds at the path named by a content string: nothing,
a regular file with the given decoded text, or a directory.  This oracle
abstracts Path(content).exists() and Path(content).read_text() of the source;
Python's path semantics fix one of its values, stated as a hypothesis where
needed: Path("") normalizes to ".", the current working directory, which
always exists and is a directory. -/
inductive PathKind where
  | missing : PathKind
  | file : String → PathKind
  | dir : PathKind
deriving DecidableEq

/-- The exception a parser run can raise: read_text on a directory raises
IsADirectoryError. -/
inductive PyError where
  | isADirectoryError : PyError
deriving DecidableEq

/-- parse_dialogue_script on a string argument, filesystem abstracted by fs:
when the content string names an existing path the source first replaces the
content by that path's text (source lines 46-47) — read_text of a directory
raises IsADirectoryError, of a file yields its text — and only a string
naming no existing path is parsed as the script text itself. -/
def parse_dialogue_script (fs : String → PathKind) (content : String) :
    Except PyError DialogueScript :=
  match fs content with
  | PathKind.dir => Except.error PyError.isADirectoryError
  | PathKind.file data => Except.ok (parseDialogueText data)
  | PathKind.missing => Except.ok (parseDialogueText content)

/-- State of the parse_narration_script scan: emitted sections, current
section title, accumulated body lines. -/
structure NarState where
  sections : List (String × String)
  current_section : List Char
  current_text : List (List Char)

/-- Flushing the accumulated body: sections gain (title, body joined by
newlines and stripped) whenever the accumulated text is non-empty. -/
def narFlush (st : NarState) : List (String × String) :=
  if st.current_text.isEmpty then st.sections
  else st.sections ++ [(st.current_section.asString,
    (pyStrip (List.intercalate ['\n'] st.current_text)).asString)]

/-- One iteration of the parse_narration_script loop: a line starting with two
hash marks flushes and opens a new section titled by the line with leading
hash marks and whitespace stripped; any other hash-initial line is skipped;
non-empty lines accumulate into the current body. -/
def narStep (st : NarState) (rawLine : List Char) : NarState :=
  let line := pyStrip rawLine
  if ['#', '#'].isPrefixOf line then
    { sections := narFlush st
      current_section := pyStrip (line.dropWhile (fun c => c == '#'))
      current_text := [] }
  else if ['#'].isPrefixOf line then st
  else if line.isEmpty then st
  else { st with current_text := st.current_text ++ [line] }

/-- The parsing body of parse_narration_script (source lines 97-117), applied
to the script text once the Path branch has resolved it. -/
def parseNarrationText (content : String) : List (String × String) :=
  narFlush ((splitNl content.data).foldl narStep ⟨[], "Introduction".data, []⟩)

/-- parse_narration_script on a string argument, filesystem abstracted by fs,
with the same Path branch as parse_dialogue_script (source lines 94-95). -/
def parse_narration_script (fs : String → PathKind) (content : String) :
    Except PyError (List (String × String)) :=
  match fs content with
  | PathKind.dir => Except.error PyError.isADirectoryError
  | PathKind.file data => Except.ok (parseNarrationText data)
  | PathKind.missing => Except.ok (parseNarrationText content)

/-- Claim C3 is false of the code: both parsers start with
`elif Path(content).exists(): content = Path(content).read_text(...)`, and
Path("") normalizes to ".", the current working directory, which exists and
is a directory — so on the empty string both take the file-reading branch and
read_text raises IsADirectoryError instead of returning an empty result.  For
every filesystem in which the empty string's path is a directory (as Python's
path semantics guarantee), both calls error. -/
theorem claim_C3_empty_input (fs : String → PathKind)
    (h : fs "" = PathKind.dir) :
    parse_dialogue_script fs "" = Except.error PyError.isADirectoryError
    ∧ parse_narration_script fs "" = Except.error PyError.isADirectoryError := by
  unfold parse_dialogue_script parse_narration_script
  rw [h]
  exact ⟨rfl, rfl⟩

/-- Witness for claim C3: the filesystem mapping every path to a directory
satisfies the hypothesis, and both parsers error on the empty string there. -/
theorem claim_C3_empty_input_witness :
    (fun _ : String => PathKind.dir) "" = PathKind.dir
    ∧ (parse_dialogue_script (fun _ => PathKind.dir) ""
         = Except.error PyError.isADirectoryError
       ∧ parse_narration_script (fun _ => PathKind.dir) ""
         = Except.error PyError.isADirectoryError) :=
  ⟨rfl, claim_C3_empty_input (fun _ => PathKind.dir) rfl⟩

theorem foldl_dlgStep_lines (l : List (Nat × List Char))
    (acc : List DialogueLine × Finset String) :
    (l.foldl dlgStep acc).1 = acc.1 ++ l.filterMap (fun p => emitLine (p.1 + 1) p.2) := by
  induction l generalizing acc with
  | nil => simp
  | cons p t ih =>
    rw [List.foldl_cons, ih, List.filterMap_cons]
    cases h : emitLine (p.1 + 1) p.2 with
    | none => simp [dlgStep, h]
    | some dl => simp [dlgStep, h]

/-- Claim C7, confined to inputs the source parses as script text — content
strings naming no existing path, so that the Path branch (source lines 46-47)
is not taken: the three-line bracket example parses to exactly three lines in
document order with speaker set containing A and B and line numbers 1, 2, 3;
and in general the result is Except.ok of the text parse, whose lines are
exactly the emitted ones of the 1-based enumeration of all source lines —
line_number is the 1-based position of the line among all lines of the input,
counting skipped ones. -/
theorem claim_C7_parse_dialogue_basics (fs : String → PathKind) :
    (fs "[A]: hi\n[B]: bye\n[A]: ok" = PathKind.missing →
      parse_dialogue_script fs "[A]: hi\n[B]: bye\n[A]: ok"
        = Except.ok ⟨[⟨"A", "hi", 1⟩, ⟨"B", "bye", 2⟩, ⟨"A", "ok", 3⟩], {"A", "B"}⟩)
    ∧ ∀ content : String, fs content = PathKind.missing →
        parse_dialogue_script fs content = Except.ok (parseDialogueText content)
        ∧ (parseDialogueText content).lines
          = ((splitNl content.data).enum).filterMap (fun p => emitLine (p.1 + 1) p.2) := by
  have hbranch : ∀ s : String, fs s = PathKind.missing →
      parse_dialogue_script fs s = Except.ok (parseDialogueText s) := by
    intro s hs
    unfold parse_dialogue_script
    rw [hs]
  have hlines : ∀ content : String, (parseDialogueText content).lines
      = ((splitNl content.data).enum).filterMap (fun p => emitLine (p.1 + 1) p.2) := by
    intro content
    rw [show (parseDialogueText content).lines
        = (((splitNl content.data).enum).foldl dlgStep ([], ∅)).1 from rfl]
    rw [foldl_dlgStep_lines]
    rfl
  refine ⟨fun h => ?_, fun content hc => ⟨hbranch content hc, hlines content⟩⟩
  rw [hbranch _ h]
  have h1 : (parseDialogueText "[A]: hi\n[B]: bye\n[A]: ok").lines
      = [⟨"A", "hi", 1⟩, ⟨"B", "bye", 2⟩, ⟨"A", "ok", 3⟩] := by decide
  have h2 : (parseDialogueText "[A]: hi\n[B]: bye\n[A]: ok").speakers
      = {"A", "B"} := by decide
  rw [show parseDialogueText "[A]: hi\n[B]: bye\n[A]: ok"
      = ⟨(parseDialogueText "[A]: hi\n[B]: bye\n[A]: ok").lines,
         (parseDialogueText "[A]: hi\n[B]: bye\n[A]: ok").speakers⟩ from rfl, h1, h2]

/-- Witness for claim C7: on the filesystem where no string names an existing
path, the general clause at an input with skipped lines (evaluated: the only
kept line has line_number 3) and the concrete three-line clause. -/
theorem claim_C7_parse_dialogue_basics_witness :
    (parse_dialogue_script (fun _ => PathKind.missing) "\n# c\nA: hi"
        = Except.ok (parseDialogueText "\n# c\nA: hi")
      ∧ (parseDialogueText "\n# c\nA: hi").lines
          = ((splitNl "\n# c\nA: hi".data).enum).filterMap (fun p => emitLine (p.1 + 1) p.2))
    ∧ (parseDialogueText "\n# c\nA: hi").lines = [⟨"A", "hi", 3⟩]
    ∧ parse_dialogue_script (fun _ => PathKind.missing) "[A]: hi\n[B]: bye\n[A]: ok"
        = Except.ok ⟨[⟨"A", "hi", 1⟩, ⟨"B", "bye", 2⟩, ⟨"A", "ok", 3⟩], {"A", "B"}⟩ :=
  ⟨(claim_C7_parse_dialogue_basics (fun _ => PathKind.missing)).2 "\n# c\nA: hi" rfl,
   by decide,
   (claim_C7_parse_dialogue_basics (fun _ => PathKind.missing)).1 rfl⟩

/-! ## GeminiTTS.synthesize_dialogue (src/tts/gemini_tts.py) -/

/-- A parsed dialogue segment record, the speaker/text mapping of the source. -/
structure Segment where
  speaker : String
  text : String
deriving DecidableEq

/-- Lexicographic comparison of two character lists by code point — the order
Python string comparison uses. -/
def charListLt : List Char → List Char → Bool
  | [], [] => false
  | [], _ :: _ => true
  | _ :: _, [] => false
  | a :: as, b :: bs =>
    if a.val < b.val then true
    else if b.val < a.val then false
    else charListLt as bs

/-- Python s < t on strings. -/
def pyStrLt (s t : String) : Bool := charListLt s.data t.data

/-- Insert a string into a list sorted by Python string order. -/
def insertSortedStr (s : String) : List String → List String
  | [] => [s]
  | t :: ts => if pyStrLt t s then t :: insertSortedStr s ts else s :: t :: ts

/-- Python sorted() over a list of strings. -/
def sortStrings (l : List String) : List String := l.foldr insertSortedStr []

/-- Python sorted(set(seg speaker for seg in segments)). -/
def sortedSpeakers (segments : List Segment) : List String :=
  sortStrings ((segments.map Segment.speaker).dedup)

/-- The female-leaning Gemini voice pool of synthesize_dialogue. -/
def gemini_female_voices : List String := ["Aoede", "Kore", "Leda", "Zephyr"]

/-- The male-leaning Gemini voice pool of synthesize_dialogue. -/
def gemini_male_voices : List String := ["Puck", "Charon", "Orus", "Fenrir"]

/-- The parity-split default voice for the speaker of sorted rank i: even ranks
draw from the female pool, odd ranks from the male pool, both indexed by
i // 2 mod pool size. -/
def parityVoice (i : Nat) : String :=
  if i % 2 = 0 then (gemini_female_voices[(i / 2) % gemini_female_voices.length]!)
  else (gemini_male_voices[(i / 2) % gemini_male_voices.length]!)

/-- The default speaker-to-voice assignment built when none is passed in. -/
def defaultSpeakerVoices (segments : List Segment) : List (String × String) :=
  (sortedSpeakers segments).enum.map (fun p => (p.2, parityVoice p.1))

/-- The prompt built for one segment: with a non-empty style for the speaker,
a Say-style instruction; otherwise the bare text (None and the empty string
are both falsy in the source's style check). -/
def promptOf (styles : List (String × String)) (seg : Segment) : String :=
  match styles.lookup seg.speaker with
  | some st => if st = "" then seg.text else "Say " ++ st ++ ": " ++ seg.text
  | none => seg.text

/-- speaker_voices.get(speaker, "Kore"). -/
def voiceOf (voices : List (String × String)) (seg : Segment) : String :=
  (voices.lookup seg.speaker).getD "Kore"

/-- The gateway call made for one segment: the generate_content request with
the segment's prompt and voice, returning audio samples on success and none
when the call raises. -/
def segAudio (g : String → String → Option Samples) (voices styles : List (String × String))
    (seg : Segment) : Option Samples :=
  g (promptOf styles seg) (voiceOf voices seg)

/-- GeminiTTS.synthesize_dialogue over an abstract gateway g: resolve the
voice and style maps (falling back to the parity defaults and no styles), try
each segment in order collecting the successful audio files — a raised
gateway call is caught, reported and skipped — and combine the successes; when
no segment succeeded the source never writes the output file, modelled as
none. -/
def synthesize_dialogue (g : String → String → Option Samples) (segments : List Segment)
    (speaker_voices : Option (List (String × String)))
    (speaker_styles : Option (List (String × String))) : Option Samples :=
  let voices := speaker_voices.getD (defaultSpeakerVoices segments)
  let styles := speaker_styles.getD []
  let temp_files := segments.foldl (fun acc seg =>
    match segAudio g voices styles seg with
    | some audio => acc ++ [audio]
    | none => acc) ([] : List Samples)
  if temp_files.isEmpty then none else some (combine_audio_files temp_files)

theorem foldl_segAudio (g : String → String → Option Samples)
    (voices styles : List (String × String)) (segments : List Segment) (acc : List Samples) :
    segments.foldl (fun acc seg =>
        match segAudio g voices styles seg with
        | some audio => acc ++ [audio]
        | none => acc) acc
      = acc ++ segments.filterMap (segAudio g voices styles) := by
  induction segments generalizing acc with
  | nil => simp
  | cons seg t ih =>
    rw [List.foldl_cons, List.filterMap_cons]
    cases h : segAudio g voices styles seg with
    | none => simp only [h, ih]
    | some audio => simp only [h, ih, List.append_assoc, List.singleton_append]

/-- Claim C2: whenever the gateway fails for some segments but succeeds for at
least one, synthesize_dialogue does not abort: it returns the combination of
exactly the successful segments' audio, in script order, with the failing
segments omitted. -/
theorem claim_C2_segment_failure_nonfatal (g : String → String → Option Samples)
    (segments : List Segment)
    (speaker_voices speaker_styles : Option (List (String × String)))
    (h : ∃ seg ∈ segments,
      segAudio g (speaker_voices.getD (defaultSpeakerVoices segments))
        (speaker_styles.getD []) seg ≠ none) :
    synthesize_dialogue g segments speaker_voices speaker_styles
      = some (combine_audio_files
          (segments.filterMap (segAudio g (speaker_voices.getD (defaultSpeakerVoices segments))
            (speaker_styles.getD [])))) := by
  obtain ⟨seg, hmem, hne⟩ := h
  rcases Option.ne_none_iff_exists.mp hne with ⟨audio, haudio⟩
  have hmemf : audio ∈ segments.filterMap
      (segAudio g (speaker_voices.getD (defaultSpeakerVoices segments))
        (speaker_styles.getD [])) :=
    List.mem_filterMap.mpr ⟨seg, hmem, haudio.symm⟩
  have hemp : ¬ (segments.filterMap
      (segAudio g (speaker_voices.getD (defaultSpeakerVoices segments))
        (speaker_styles.getD []))).isEmpty = true := by
    intro hemp
    rw [List.isEmpty_iff] at hemp
    rw [hemp] at hmemf
    exact List.not_mem_nil audio hmemf
  rw [synthesize_dialogue]
  rw [foldl_segAudio]
  rw [List.nil_append]
  rw [if_neg hemp]

/-- The gateway of the claim C2 witness: fails on one prompt, succeeds
elsewhere. -/
def witnessGateway : String → String → Option Samples :=
  fun prompt _ => if prompt = "boom" then none else some [1]

/-- Witness for claim C2 at a concrete input with one failing and one
succeeding segment. -/
theorem claim_C2_segment_failure_nonfatal_witness :
    synthesize_dialogue witnessGateway [⟨"A", "boom"⟩, ⟨"A", "hi"⟩]
        (some [("A", "Kore")]) (some [])
      = some (combine_audio_files [[1]]) := by
  have h := claim_C2_segment_failure_nonfatal witnessGateway [⟨"A", "boom"⟩, ⟨"A", "hi"⟩]
    (some [("A", "Kore")]) (some [])
    ⟨⟨"A", "hi"⟩, by decide, by decide⟩
  rw [h]
  rfl

/-! ## VoiceManager (src/tts/voice_manager.py) -/

/-- Voice configuration for a speaker (VoiceConfig dataclass); the two float
fields take only the exact values 1.0, 0.9 and 0.0 here, modelled as
rationals. -/
structure VoiceConfig where
  name : String
  language_code : String := "ja-JP"
  speaking_rate : Rat := 1
  pitch : Rat := 0
deriving DecidableEq

instance : Inhabited VoiceConfig := ⟨⟨"", "ja-JP", 1, 0⟩⟩

/-- JAPANESE_VOICES.values() in dict insertion order:
male_1, male_2, female_1, female_2, narrator. -/
def JAPANESE_VOICES : List VoiceConfig :=
  [⟨"ja-JP-Neural2-C", "ja-JP", 1, 0⟩,
   ⟨"ja-JP-Neural2-D", "ja-JP", 1, 0⟩,
   ⟨"ja-JP-Neural2-B", "ja-JP", 1, 0⟩,
   ⟨"ja-JP-Wavenet-A", "ja-JP", 1, 0⟩,
   ⟨"ja-JP-Neural2-B", "ja-JP", mkRat 9 10, 0⟩]

/-- ENGLISH_VOICES.values() in dict insertion order. -/
def ENGLISH_VOICES : List VoiceConfig :=
  [⟨"en-US-Neural2-D", "en-US", 1, 0⟩,
   ⟨"en-US-Neural2-J", "en-US", 1, 0⟩,
   ⟨"en-US-Neural2-F", "en-US", 1, 0⟩,
   ⟨"en-US-Neural2-C", "en-US", 1, 0⟩,
   ⟨"en-US-Neural2-F", "en-US", mkRat 9 10, 0⟩]

/-- The mutable state of a VoiceManager: its default language, the
speaker_voices dict (insertion-ordered, unique keys) and the _voice_index
counter. -/
structure VoiceManagerState where
  default_language : String
  speaker_voices : List (String × VoiceConfig)
  voice_index : Nat
deriving DecidableEq

/-- VoiceManager(default_language) constructor. -/
def initVoiceManager (default_language : String := "ja-JP") : VoiceManagerState :=
  ⟨default_language, [], 0⟩

/-- Python lang.startswith("ja"). -/
def startsWithJa (lang : String) : Bool :=
  match lang.data with
  | 'j' :: 'a' :: _ => true
  | _ => false

/-- The preset list for the manager's language:
default_language.startswith("ja") selects the Japanese presets. -/
def presetsFor (lang : String) : List VoiceConfig :=
  if startsWithJa lang then JAPANESE_VOICES else ENGLISH_VOICES

/-- The preset drawn at counter or rank position i for the manager's language:
presets[i % len(presets)]. -/
def presetAt (lang : String) (i : Nat) : VoiceConfig :=
  (presetsFor lang)[i % (presetsFor lang).length]!

/-- VoiceManager._auto_assign_voice: assign
voices[_voice_index % len(voices)] to the speaker and advance the counter. -/
def auto_assign_voice (st : VoiceManagerState) (speaker : String) : VoiceManagerState :=
  let voices := presetsFor st.default_language
  { st with
    speaker_voices := st.speaker_voices ++ [(speaker, voices[st.voice_index % voices.length]!)]
    voice_index := st.voice_index + 1 }

/-- VoiceManager.get_voice: look the speaker up, auto-assigning on a miss. -/
def get_voice (st : VoiceManagerState) (speaker : String) :
    VoiceConfig × VoiceManagerState :=
  match st.speaker_voices.lookup speaker with
  | some v => (v, st)
  | none =>
    let st2 := auto_assign_voice st speaker
    ((st2.speaker_voices.lookup speaker).getD default, st2)

/-- One iteration of the assign_voices_for_dialogue loop at enumerate index i:
skip already-assigned speakers, give a new speaker
available_voices[i % len(available_voices)]. -/
def stepAssign (available : List VoiceConfig) (s : VoiceManagerState) (p : Nat × String) :
    VoiceManagerState :=
  if (s.speaker_voices.lookup p.2).isSome then s
  else { s with speaker_voices := s.speaker_voices ++ [(p.2, available[p.1 % available.length]!)] }

/-- VoiceManager.assign_voices_for_dialogue: walk enumerate(sorted(speakers));
the speakers argument is a Python set, modelled as a list that is deduplicated
before sorting. -/
def assign_voices_for_dialogue (st : VoiceManagerState) (speakers : List String) :
    VoiceManagerState :=
  let available := presetsFor st.default_language
  (sortStrings speakers.dedup).enum.foldl (stepAssign available) st

/-- The mixed-mode run of the claim C4 counterexample: one incremental
get_voice for speaker B, then a batch assignment for speakers A and B. -/
def vmAfterMixed : VoiceManagerState :=
  assign_voices_for_dialogue ((get_voice (initVoiceManager "ja-JP") "B").2) ["A", "B"]

/-- Claim C4, counterexample: after get_voice "B" (which consumes shared
counter position 0) a batch assign_voices_for_dialogue for A and B gives A
preset position 0 as well — A's rank in the sorted speaker list — although the
claimed shared counter has advanced to 1 and presets 0 and 1 differ; two
distinct speakers end on the same preset. -/
theorem claim_C4_counterexample :
    vmAfterMixed.speaker_voices.lookup "A" = some (JAPANESE_VOICES[0]!)
    ∧ vmAfterMixed.speaker_voices.lookup "B" = some (JAPANESE_VOICES[0]!)
    ∧ JAPANESE_VOICES[0]! ≠ JAPANESE_VOICES[1]!
    ∧ vmAfterMixed.voice_index = 1 := by
  decide

theorem lookup_append {β : Type} (l m : List (String × β)) (k : String) :
    (l ++ m).lookup k
      = match l.lookup k with
        | some v => some v
        | none => m.lookup k := by
  induction l with
  | nil => simp
  | cons p t ih =>
    rcases p with ⟨k1, v1⟩
    by_cases h : k == k1
    · simp [List.lookup, h]
    · simp [List.lookup, h, ih]

theorem lookup_eq_none_of_not_key {β : Type} (l : List (String × β)) (k : String)
    (h : ∀ q ∈ l, k ≠ q.1) : l.lookup k = none := by
  induction l with
  | nil => rfl
  | cons p t ih =>
    have hk2 : (k == p.1) = false :=
      beq_eq_false_iff_ne.mpr (h p (List.mem_cons_self _ _))
    simp only [List.lookup, hk2]
    exact ih (fun q hq => h q (List.mem_cons_of_mem _ hq))

theorem foldl_stepAssign (available : List VoiceConfig) (ps : List (Nat × String)) :
    ∀ (st : VoiceManagerState) (extra : List (String × VoiceConfig)),
    (∀ p ∈ ps, ∀ q ∈ extra, p.2 ≠ q.1) →
    (ps.map Prod.snd).Nodup →
    ps.foldl (stepAssign available) { st with speaker_voices := st.speaker_voices ++ extra }
      = { st with speaker_voices := st.speaker_voices ++ extra
            ++ ps.filterMap (fun p =>
                if (st.speaker_voices.lookup p.2).isSome then none
                else some (p.2, available[p.1 % available.length]!)) } := by
  induction ps with
  | nil => intro st extra _ _; simp
  | cons p t ih =>
    intro st extra hdis hnd
    have hpextra : (extra.lookup p.2) = none :=
      lookup_eq_none_of_not_key extra p.2
        (fun q hq => hdis p (List.mem_cons_self _ _) q hq)
    have hcond : ((st.speaker_voices ++ extra).lookup p.2).isSome
        = (st.speaker_voices.lookup p.2).isSome := by
      rw [lookup_append]
      cases hb : st.speaker_voices.lookup p.2 with
      | some v => rfl
      | none => rw [hpextra]
    rw [List.foldl_cons, List.filterMap_cons]
    rw [List.map_cons, List.nodup_cons] at hnd
    obtain ⟨hphd, hnd2⟩ := hnd
    by_cases hassigned : (st.speaker_voices.lookup p.2).isSome = true
    · rw [show stepAssign available { st with speaker_voices := st.speaker_voices ++ extra } p
          = { st with speaker_voices := st.speaker_voices ++ extra } by
        simp only [stepAssign, hcond, hassigned, if_true]]
      rw [ih st extra (fun q hq r hr => hdis q (List.mem_cons_of_mem _ hq) r hr) hnd2]
      simp [hassigned]
    · rw [show stepAssign available { st with speaker_voices := st.speaker_voices ++ extra } p
          = { st with speaker_voices := st.speaker_voices
                ++ (extra ++ [(p.2, available[p.1 % available.length]!)]) } by
        simp only [stepAssign, hcond, hassigned]
        simp [List.append_assoc]]
      rw [ih st (extra ++ [(p.2, available[p.1 % available.length]!)]) ?hdis2 hnd2]
      · simp only [hassigned, Bool.false_eq_true, if_false, List.append_assoc,
          List.singleton_append]
      case hdis2 =>
        intro q hq r hr
        rcases List.mem_append.mp hr with hr1 | hr2
        · exact hdis q (List.mem_cons_of_mem _ hq) r hr1
        · have hreq : r = (p.2, available[p.1 % available.length]!) := by simpa using hr2
          subst hreq
          intro hqp
          have hqp2 : q.2 = p.2 := hqp
          exact hphd (hqp2 ▸ List.mem_map.mpr ⟨q, hq, rfl⟩)

theorem sortStrings_perm (l : List String) : (sortStrings l).Perm l := by
  have hins : ∀ (s : String) (m : List String), (insertSortedStr s m).Perm (s :: m) := by
    intro s m
    induction m with
    | nil => exact List.Perm.refl _
    | cons t ts ih =>
      by_cases h : pyStrLt t s = true
      · simp only [insertSortedStr, if_pos h]
        exact ((ih.cons t).trans (List.Perm.swap s t ts))
      · simp only [insertSortedStr, if_neg h]
        exact List.Perm.refl _
  induction l with
  | nil => exact List.Perm.refl _
  | cons s ls ih =>
    exact ((hins s (sortStrings ls)).trans (ih.cons s))

/-- Claim C4 (amended): the two assignment modes do not share one counter.
Incremental mode assigns presets[_voice_index % len] and advances _voice_index;
batch mode never reads or advances _voice_index, and instead gives each
not-yet-assigned speaker presets[i % len] where i is its rank in the sorted
full speaker list, leaving already-assigned speakers unchanged — so mixing
the modes can place two distinct speakers on the same preset position. -/
theorem claim_C4_amended :
    (∀ (st : VoiceManagerState) (sp : String),
        st.speaker_voices.lookup sp = none →
        (get_voice st sp).1 = presetAt st.default_language st.voice_index
          ∧ (get_voice st sp).2.voice_index = st.voice_index + 1)
    ∧ (∀ (st : VoiceManagerState) (speakers : List String),
        (assign_voices_for_dialogue st speakers).voice_index = st.voice_index
        ∧ (assign_voices_for_dialogue st speakers).speaker_voices
            = st.speaker_voices
              ++ (sortStrings speakers.dedup).enum.filterMap (fun p =>
                  if (st.speaker_voices.lookup p.2).isSome then none
                  else some (p.2, presetAt st.default_language p.1))) := by
  constructor
  · intro st sp hmiss
    constructor
    · simp only [get_voice, hmiss, auto_assign_voice]
      rw [lookup_append, hmiss]
      simp [List.lookup, presetAt]
    · simp [get_voice, hmiss, auto_assign_voice]
  · intro st speakers
    have hnd : ((sortStrings speakers.dedup).enum.map Prod.snd).Nodup := by
      rw [List.enum_map_snd]
      exact ((sortStrings_perm speakers.dedup).nodup_iff).mpr speakers.nodup_dedup
    have hchar := foldl_stepAssign (presetsFor st.default_language)
      ((sortStrings speakers.dedup).enum) st []
      (fun p _ q hq => absurd hq (List.not_mem_nil q)) hnd
    rw [List.append_nil] at hchar
    have hst : { st with speaker_voices := st.speaker_voices } = st := rfl
    rw [hst] at hchar
    rw [show assign_voices_for_dialogue st speakers
        = (sortStrings speakers.dedup).enum.foldl (stepAssign (presetsFor st.default_language)) st
        from rfl]
    rw [hchar]
    exact ⟨rfl, rfl⟩

/-- Witness for claim C4 (amended) at a concrete input. -/
theorem claim_C4_amended_witness :
    (get_voice (initVoiceManager "ja-JP") "B").1 = presetAt "ja-JP" 0
    ∧ (get_voice (initVoiceManager "ja-JP") "B").2.voice_index = 0 + 1 :=
  claim_C4_amended.1 (initVoiceManager "ja-JP") "B" rfl

/-! ## parse_dialogue of app.py: dialect normalization and extraction

The function is a cascade of Python string rewrites followed by a final
re.finditer scan.  Each regex of the source is a fixed pattern, modelled here
as a dedicated matcher over the character list; each re.sub / str.replace is a
left-to-right scanner that, at every position, either rewrites a match and
resumes after it or copies one character — exactly Python's non-overlapping
left-to-right semantics.  The \d class is modelled on the digits that matter
here (ASCII and full-width; Python's \d covers all Unicode decimal digits),
and \s on the whitespace of isPyWs. -/

/-- The digit class of the source's regexes, on the digits occurring here:
ASCII and full-width. -/
def pyDigit (c : Char) : Bool := c.isDigit || ('０' ≤ c && c ≤ '９')

/-- The full-width-to-ASCII digit conversion of parse_dialogue: the source
chains single-character str.replace calls for １..５ (6-9 are not converted),
which amounts to a character map. -/
def fixDigit (c : Char) : Char :=
  if c = '１' then '1' else if c = '２' then '2' else if c = '３' then '3'
  else if c = '４' then '4' else if c = '５' then '5' else c

/-- Python str.replace(pat, rep): rewrite every non-overlapping occurrence,
scanning left to right.  (The source's patterns are never empty; an empty
pattern is returned unchanged.)  The scanners of this development recurse on
an explicit step budget, always instantiated with the input length, which
every scan step strictly decreases; this keeps them structurally recursive
and so evaluable inside the kernel. -/
def replaceAllFuel (pat rep : List Char) : Nat → List Char → List Char
  | 0, s => s
  | _ + 1, [] => []
  | fuel + 1, c :: rest =>
    if pat.isPrefixOf (c :: rest) then
      rep ++ replaceAllFuel pat rep fuel ((c :: rest).drop pat.length)
    else
      c :: replaceAllFuel pat rep fuel rest

/-- Python str.replace(pat, rep) for the non-empty patterns used here. -/
def replaceAll (pat rep : List Char) (s : List Char) : List Char :=
  if pat.isEmpty then s else replaceAllFuel pat rep s.length s

theorem replaceAllFuel_irrel (pat rep : List Char) (hpat : pat ≠ []) :
    ∀ (f1 : Nat) (s : List Char) (f2 : Nat), s.length ≤ f1 → s.length ≤ f2 →
      replaceAllFuel pat rep f1 s = replaceAllFuel pat rep f2 s := by
  intro f1
  induction f1 with
  | zero =>
    intro s f2 h1 _
    have : s = [] := List.eq_nil_of_length_eq_zero (Nat.le_zero.mp h1)
    subst this
    cases f2 <;> rfl
  | succ k ih =>
    intro s f2 h1 h2
    cases s with
    | nil => cases f2 <;> rfl
    | cons c rest =>
      have hf2 : ∃ m, f2 = m + 1 := by
        cases f2 with
        | zero => simp at h2
        | succ m => exact ⟨m, rfl⟩
      obtain ⟨m, rfl⟩ := hf2
      simp only [replaceAllFuel]
      by_cases hp : pat.isPrefixOf (c :: rest)
      · rw [if_pos hp, if_pos hp]
        have hlen : ((c :: rest).drop pat.length).length ≤ k := by
          have hpl : 1 ≤ pat.length := by
            cases pat with
            | nil => exact absurd rfl hpat
            | cons p ps => simp
          simp only [List.length_drop, List.length_cons] at *
          omega
        have hlen2 : ((c :: rest).drop pat.length).length ≤ m := by
          have hpl : 1 ≤ pat.length := by
            cases pat with
            | nil => exact absurd rfl hpat
            | cons p ps => simp
          simp only [List.length_drop, List.length_cons] at *
          omega
        rw [ih _ m hlen hlen2]
      · rw [if_neg hp, if_neg hp]
        have hlen : rest.length ≤ k := by
          simp only [List.length_cons] at h1
          omega
        have hlen2 : rest.length ≤ m := by
          simp only [List.length_cons] at h2
          omega
        rw [ih _ m hlen hlen2]

theorem replaceAll_nil (pat rep : List Char) : replaceAll pat rep [] = [] := by
  by_cases hp : pat.isEmpty <;> simp [replaceAll, hp, replaceAllFuel]

theorem replaceAll_match (pat rep : List Char) (s : List Char) (hpat : pat ≠ [])
    (hp : pat.isPrefixOf s) :
    replaceAll pat rep s = rep ++ replaceAll pat rep (s.drop pat.length) := by
  have hpe : pat.isEmpty = false := by
    cases pat with
    | nil => exact absurd rfl hpat
    | cons p ps => rfl
  cases s with
  | nil =>
    cases pat with
    | nil => exact absurd rfl hpat
    | cons p ps => exact absurd hp (by simp [List.isPrefixOf])
  | cons c rest =>
    simp only [replaceAll, hpe, Bool.false_eq_true, if_false]
    rw [show (c :: rest).length = rest.length + 1 from rfl]
    simp only [replaceAllFuel, hp, if_true]
    congr 1
    apply replaceAllFuel_irrel pat rep hpat
    · have hpl : 1 ≤ pat.length := by
        cases pat with
        | nil => exact absurd rfl hpat
        | cons p ps => simp
      simp only [List.length_drop, List.length_cons]
      omega
    · simp

theorem replaceAll_skip (pat rep : List Char) (c : Char) (rest : List Char) (hpat : pat ≠ [])
    (hp : ¬ pat.isPrefixOf (c :: rest)) :
    replaceAll pat rep (c :: rest) = c :: replaceAll pat rep rest := by
  have hpe : pat.isEmpty = false := by
    cases pat with
    | nil => exact absurd rfl hpat
    | cons p ps => rfl
  simp only [replaceAll, hpe, Bool.false_eq_true, if_false]
  rw [show (c :: rest).length = rest.length + 1 from rfl]
  simp only [replaceAllFuel, hp, if_false]
  rfl

/-- The matcher of the paren-speaker rewrites, patterns （話者\d+）[:：]?\s*
and \((話者\d+)\)[:：]?\s* with the paren pair as parameters: on success
returns the first capture group (話者 plus digits) and the input after the
matched region. -/
def tryParen (po pc : Char) : List Char → Option (List Char × List Char)
  | a :: b :: c :: rest =>
    if a = po ∧ b = '話' ∧ c = '者' then
      if (rest.takeWhile pyDigit).isEmpty then none
      else
        match rest.dropWhile pyDigit with
        | d :: r2 =>
          if d = pc then
            match r2 with
            | e :: r2t =>
              if isColon e then
                some ('話' :: '者' :: rest.takeWhile pyDigit, r2t.dropWhile isPyWs)
              else some ('話' :: '者' :: rest.takeWhile pyDigit, r2.dropWhile isPyWs)
            | [] => some ('話' :: '者' :: rest.takeWhile pyDigit, [])
          else none
        | [] => none
    else none
  | _ => none

theorem length_dropWhile_le {p : Char → Bool} (l : List Char) :
    (l.dropWhile p).length ≤ l.length := by
  induction l with
  | nil => simp
  | cons c t ih =>
    by_cases h : p c
    · simp only [List.dropWhile_cons, h, if_true]
      exact Nat.le_trans ih (by simp)
    · simp [List.dropWhile_cons, h]

theorem tryParen_length (po pc : Char) (l : List Char) (g r : List Char)
    (h : tryParen po pc l = some (g, r)) : r.length < l.length := by
  match l with
  | [] => exact absurd h (by simp [tryParen])
  | [a] => exact absurd h (by simp [tryParen])
  | [a, b] => exact absurd h (by simp [tryParen])
  | a :: b :: c :: rest =>
    rw [tryParen] at h
    by_cases hab : a = po ∧ b = '話' ∧ c = '者'
    · rw [if_pos hab] at h
      by_cases hds : (rest.takeWhile pyDigit).isEmpty
      · rw [if_pos hds] at h; exact absurd h (by simp)
      · rw [if_neg hds] at h
        cases hdw : rest.dropWhile pyDigit with
        | nil => rw [hdw] at h; exact absurd h (by simp)
        | cons d r2 =>
          rw [hdw] at h
          dsimp only at h
          have hr2 : r2.length + 1 ≤ rest.length := by
            have := length_dropWhile_le (p := pyDigit) rest
            rw [hdw] at this
            simpa using this
          by_cases hd : d = pc
          · rw [if_pos hd] at h
            cases r2 with
            | nil =>
              simp only [Option.some.injEq, Prod.mk.injEq] at h
              rw [← h.2]
              simp only [List.length_cons, List.length_nil]
              omega
            | cons e r2t =>
              dsimp only at h
              by_cases he : isColon e
              · rw [if_pos he] at h
                simp only [Option.some.injEq, Prod.mk.injEq] at h
                have := length_dropWhile_le (p := isPyWs) r2t
                rw [← h.2]
                simp only [List.length_cons] at *
                omega
              · rw [if_neg he] at h
                simp only [Option.some.injEq, Prod.mk.injEq] at h
                have := length_dropWhile_le (p := isPyWs) (e :: r2t)
                rw [← h.2]
                simp only [List.length_cons] at *
                omega
          · rw [if_neg hd] at h; exact absurd h (by simp)
    · rw [if_neg hab] at h; exact absurd h (by simp)

/-- The rewrite （話者N） / (話者N) → [話者N]: applied across the whole
content, scanning left to right. -/
def subParenFuel (po pc : Char) : Nat → List Char → List Char
  | 0, s => s
  | _ + 1, [] => []
  | fuel + 1, c :: rest =>
    match tryParen po pc (c :: rest) with
    | some (g, r) => ('[' :: g ++ [']', ':', ' ']) ++ subParenFuel po pc fuel r
    | none => c :: subParenFuel po pc fuel rest

/-- re.sub of the paren-speaker pattern over the whole content. -/
def subParen (po pc : Char) (s : List Char) : List Char :=
  subParenFuel po pc s.length s

theorem subParenFuel_irrel (po pc : Char) :
    ∀ (f1 : Nat) (s : List Char) (f2 : Nat), s.length ≤ f1 → s.length ≤ f2 →
      subParenFuel po pc f1 s = subParenFuel po pc f2 s := by
  intro f1
  induction f1 with
  | zero =>
    intro s f2 h1 _
    have : s = [] := List.eq_nil_of_length_eq_zero (Nat.le_zero.mp h1)
    subst this
    cases f2 <;> rfl
  | succ k ih =>
    intro s f2 h1 h2
    cases s with
    | nil => cases f2 <;> rfl
    | cons c rest =>
      have hf2 : ∃ m, f2 = m + 1 := by
        cases f2 with
        | zero => simp at h2
        | succ m => exact ⟨m, rfl⟩
      obtain ⟨m, rfl⟩ := hf2
      simp only [subParenFuel]
      cases hm : tryParen po pc (c :: rest) with
      | some gr =>
        obtain ⟨g, r⟩ := gr
        dsimp only
        have hlt := tryParen_length po pc (c :: rest) g r hm
        simp only [List.length_cons] at h1 h2 hlt
        congr 1
        exact ih r m (by omega) (by omega)
      | none =>
        dsimp only
        simp only [List.length_cons] at h1 h2
        congr 1
        exact ih rest m (by omega) (by omega)

theorem subParen_nil (po pc : Char) : subParen po pc [] = [] := rfl

theorem subParen_match (po pc : Char) (s : List Char) (g r : List Char)
    (hm : tryParen po pc s = some (g, r)) :
    subParen po pc s = ('[' :: g ++ [']', ':', ' ']) ++ subParen po pc r := by
  cases s with
  | nil => exact absurd hm (by simp [tryParen])
  | cons c rest =>
    have hlt := tryParen_length po pc (c :: rest) g r hm
    show subParenFuel po pc (rest.length + 1) (c :: rest) = _
    simp only [subParenFuel, hm]
    congr 1
    apply subParenFuel_irrel
    · simp only [List.length_cons] at hlt; omega
    · simp

theorem subParen_skip (po pc : Char) (c : Char) (rest : List Char)
    (hm : tryParen po pc (c :: rest) = none) :
    subParen po pc (c :: rest) = c :: subParen po pc rest := by
  show subParenFuel po pc (rest.length + 1) (c :: rest) = _
  simp only [subParenFuel, hm]
  rfl

/-- The matcher of the bare-speaker rewrite, pattern
(?<!\[)(話者\d+)[:：]\s* without its lookbehind (the scanner below applies the
lookbehind): on success returns the capture group and the input after the
matched region. -/
def tryBare : List Char → Option (List Char × List Char)
  | a :: b :: rest =>
    if a = '話' ∧ b = '者' then
      if (rest.takeWhile pyDigit).isEmpty then none
      else
        match rest.dropWhile pyDigit with
        | d :: r2 =>
          if isColon d then
            some ('話' :: '者' :: rest.takeWhile pyDigit, r2.dropWhile isPyWs)
          else none
        | [] => none
    else none
  | _ => none

theorem tryBare_length (l : List Char) (g r : List Char)
    (h : tryBare l = some (g, r)) : r.length < l.length := by
  match l with
  | [] => exact absurd h (by simp [tryBare])
  | [a] => exact absurd h (by simp [tryBare])
  | a :: b :: rest =>
    rw [tryBare] at h
    by_cases hab : a = '話' ∧ b = '者'
    · rw [if_pos hab] at h
      by_cases hds : (rest.takeWhile pyDigit).isEmpty
      · rw [if_pos hds] at h; exact absurd h (by simp)
      · rw [if_neg hds] at h
        cases hdw : rest.dropWhile pyDigit with
        | nil => rw [hdw] at h; exact absurd h (by simp)
        | cons d r2 =>
          rw [hdw] at h
          dsimp only at h
          have hr2 : r2.length + 1 ≤ rest.length := by
            have := length_dropWhile_le (p := pyDigit) rest
            rw [hdw] at this
            simpa using this
          by_cases hd : isColon d
          · rw [if_pos hd] at h
            simp only [Option.some.injEq, Prod.mk.injEq] at h
            have := length_dropWhile_le (p := isPyWs) r2
            rw [← h.2]
            simp only [List.length_cons]
            omega
          · rw [if_neg hd] at h; exact absurd h (by simp)
    · rw [if_neg hab] at h; exact absurd h (by simp)

/-- The rewrite 話者N: → [話者N]: applied across the whole content.  The
negative lookbehind of the source pattern consults exactly one fact about the
original string: whether the character before the match position is an opening
square bracket; the scanner threads that bit (after a match the region just
consumed always ends in a colon or whitespace, never a bracket). -/
def subBareFuel : Nat → Bool → List Char → List Char
  | 0, _, s => s
  | _ + 1, _, [] => []
  | fuel + 1, prevIsLb, c :: rest =>
    if prevIsLb then c :: subBareFuel fuel (c == '[') rest
    else
      match tryBare (c :: rest) with
      | some (g, r) => ('[' :: g ++ [']', ':', ' ']) ++ subBareFuel fuel false r
      | none => c :: subBareFuel fuel (c == '[') rest

/-- re.sub of the bare-speaker pattern with its lookbehind over the whole
content. -/
def subBareAux (prevIsLb : Bool) (s : List Char) : List Char :=
  subBareFuel s.length prevIsLb s

theorem subBareFuel_irrel :
    ∀ (f1 : Nat) (prev : Bool) (s : List Char) (f2 : Nat), s.length ≤ f1 → s.length ≤ f2 →
      subBareFuel f1 prev s = subBareFuel f2 prev s := by
  intro f1
  induction f1 with
  | zero =>
    intro prev s f2 h1 _
    have : s = [] := List.eq_nil_of_length_eq_zero (Nat.le_zero.mp h1)
    subst this
    cases f2 <;> rfl
  | succ k ih =>
    intro prev s f2 h1 h2
    cases s with
    | nil => cases f2 <;> rfl
    | cons c rest =>
      have hf2 : ∃ m, f2 = m + 1 := by
        cases f2 with
        | zero => simp at h2
        | succ m => exact ⟨m, rfl⟩
      obtain ⟨m, rfl⟩ := hf2
      simp only [subBareFuel]
      simp only [List.length_cons] at h1 h2
      by_cases hprev : prev
      · rw [if_pos hprev, if_pos hprev]
        congr 1
        exact ih _ rest m (by omega) (by omega)
      · rw [if_neg hprev, if_neg hprev]
        cases hm : tryBare (c :: rest) with
        | some gr =>
          obtain ⟨g, r⟩ := gr
          dsimp only
          have hlt := tryBare_length (c :: rest) g r hm
          simp only [List.length_cons] at hlt
          congr 1
          exact ih _ r m (by omega) (by omega)
        | none =>
          dsimp only
          congr 1
          exact ih _ rest m (by omega) (by omega)

theorem subBareAux_nil (prev : Bool) : subBareAux prev [] = [] := rfl

theorem subBareAux_lb (c : Char) (rest : List Char) :
    subBareAux true (c :: rest) = c :: subBareAux (c == '[') rest := by
  show subBareFuel (rest.length + 1) true (c :: rest) = _
  simp only [subBareFuel, if_pos]
  rfl

theorem subBareAux_match (c : Char) (rest : List Char) (g r : List Char)
    (hm : tryBare (c :: rest) = some (g, r)) :
    subBareAux false (c :: rest) = ('[' :: g ++ [']', ':', ' ']) ++ subBareAux false r := by
  have hlt := tryBare_length (c :: rest) g r hm
  show subBareFuel (rest.length + 1) false (c :: rest) = _
  simp only [subBareFuel, hm, Bool.false_eq_true, if_false]
  congr 1
  apply subBareFuel_irrel
  · simp only [List.length_cons] at hlt; omega
  · simp

theorem subBareAux_skip (c : Char) (rest : List Char)
    (hm : tryBare (c :: rest) = none) :
    subBareAux false (c :: rest) = c :: subBareAux (c == '[') rest := by
  show subBareFuel (rest.length + 1) false (c :: rest) = _
  simp only [subBareFuel, hm, Bool.false_eq_true, if_false]
  rfl

/-- A character of the [A-Za-z] class. -/
def isAsciiLetter (c : Char) : Bool := ('A' ≤ c && c ≤ 'Z') || ('a' ≤ c && c ≤ 'z')

/-- The matcher of the letter-speaker rewrite, pattern ^([A-Za-z])[:：]\s*
without its anchoring (the scanner below applies the MULTILINE line-start
anchor): on success returns the letter, whether the region consumed by the
trailing whitespace ends in a newline (so the next scan position is again a
line start), and the input after the matched region. -/
def tryLetter : List Char → Option (Char × Bool × List Char)
  | a :: b :: rest =>
    if isAsciiLetter a ∧ isColon b then
      some (a, (rest.takeWhile isPyWs).getLast? == some '\n', rest.dropWhile isPyWs)
    else none
  | _ => none

theorem tryLetter_length (l : List Char) (g : Char) (nl : Bool) (r : List Char)
    (h : tryLetter l = some (g, nl, r)) : r.length < l.length := by
  match l with
  | [] => exact absurd h (by simp [tryLetter])
  | [a] => exact absurd h (by simp [tryLetter])
  | a :: b :: rest =>
    rw [tryLetter] at h
    by_cases hab : isAsciiLetter a ∧ isColon b
    · rw [if_pos hab] at h
      simp only [Option.some.injEq, Prod.mk.injEq] at h
      have := length_dropWhile_le (p := isPyWs) rest
      rw [← h.2.2]
      simp only [List.length_cons]
      omega
    · rw [if_neg hab] at h; exact absurd h (by simp)

/-- The rewrite A: → [A]: at line starts (re.MULTILINE), applied across the
whole content; atLineStart holds at the start of the string and right after a
newline of the original string. -/
def subLetterFuel : Nat → Bool → List Char → List Char
  | 0, _, s => s
  | _ + 1, _, [] => []
  | fuel + 1, atLineStart, c :: rest =>
    if atLineStart then
      match tryLetter (c :: rest) with
      | some (g, nl, r) => ('[' :: g :: [']', ':', ' ']) ++ subLetterFuel fuel nl r
      | none => c :: subLetterFuel fuel (c == '\n') rest
    else c :: subLetterFuel fuel (c == '\n') rest

/-- re.sub of the MULTILINE letter-speaker pattern over the whole content. -/
def subLetterAux (atLineStart : Bool) (s : List Char) : List Char :=
  subLetterFuel s.length atLineStart s

theorem subLetterFuel_irrel :
    ∀ (f1 : Nat) (als : Bool) (s : List Char) (f2 : Nat), s.length ≤ f1 → s.length ≤ f2 →
      subLetterFuel f1 als s = subLetterFuel f2 als s := by
  intro f1
  induction f1 with
  | zero =>
    intro als s f2 h1 _
    have : s = [] := List.eq_nil_of_length_eq_zero (Nat.le_zero.mp h1)
    subst this
    cases f2 <;> rfl
  | succ k ih =>
    intro als s f2 h1 h2
    cases s with
    | nil => cases f2 <;> rfl
    | cons c rest =>
      have hf2 : ∃ m, f2 = m + 1 := by
        cases f2 with
        | zero => simp at h2
        | succ m => exact ⟨m, rfl⟩
      obtain ⟨m, rfl⟩ := hf2
      simp only [subLetterFuel]
      simp only [List.length_cons] at h1 h2
      by_cases hals : als
      · rw [if_pos hals, if_pos hals]
        cases hm : tryLetter (c :: rest) with
        | some gr =>
          obtain ⟨g, nl, r⟩ := gr
          dsimp only
          have hlt := tryLetter_length (c :: rest) g nl r hm
          simp only [List.length_cons] at hlt
          congr 1
          exact ih _ r m (by omega) (by omega)
        | none =>
          dsimp only
          congr 1
          exact ih _ rest m (by omega) (by omega)
      · rw [if_neg hals, if_neg hals]
        congr 1
        exact ih _ rest m (by omega) (by omega)

theorem subLetterAux_nil (als : Bool) : subLetterAux als [] = [] := rfl

theorem subLetterAux_inner (c : Char) (rest : List Char) :
    subLetterAux false (c :: rest) = c :: subLetterAux (c == '\n') rest := by
  show subLetterFuel (rest.length + 1) false (c :: rest) = _
  simp only [subLetterFuel, Bool.false_eq_true, if_false]
  rfl

theorem subLetterAux_match (c : Char) (rest : List Char) (g : Char) (nl : Bool) (r : List Char)
    (hm : tryLetter (c :: rest) = some (g, nl, r)) :
    subLetterAux true (c :: rest) = ('[' :: g :: [']', ':', ' ']) ++ subLetterAux nl r := by
  have hlt := tryLetter_length (c :: rest) g nl r hm
  show subLetterFuel (rest.length + 1) true (c :: rest) = _
  simp only [subLetterFuel, hm, if_true]
  congr 1
  apply subLetterFuel_irrel
  · simp only [List.length_cons] at hlt; omega
  · simp

theorem subLetterAux_skip (c : Char) (rest : List Char)
    (hm : tryLetter (c :: rest) = none) :
    subLetterAux true (c :: rest) = c :: subLetterAux (c == '\n') rest := by
  show subLetterFuel (rest.length + 1) true (c :: rest) = _
  simp only [subLetterFuel, hm, if_true]
  rfl

/-- The `[:：]?\s*(.+)` tail of the finditer pattern, applied to the input
right after the closing bracket, with the regex's greedy backtracking: the
optional colon is consumed when present; the greedy whitespace run then
normally ends at a non-whitespace character, from which the final group runs
to the end of the line; when only whitespace remains, the whitespace run
backtracks so the final group becomes the last non-newline character of the
run, and when even that fails, the optional colon itself backtracks and the
final group starts at the colon; with no colon to give back the match fails.
Returns the two capture groups and the input after the matched region. -/
def tryFindAfter (g1 : List Char) (r2 : List Char) :
    Option (List Char × List Char × List Char) :=
  match r2 with
  | [] => none
  | e :: r2t =>
    if isColon e then
      match r2t.dropWhile isPyWs with
      | t1 :: trest =>
        some (g1, (t1 :: trest).takeWhile (fun c => c != '\n'),
          (t1 :: trest).drop ((t1 :: trest).takeWhile (fun c => c != '\n')).length)
      | [] =>
        match (r2t.takeWhile isPyWs).reverse.dropWhile (fun c => c == '\n') with
        | x :: _ =>
          some (g1, [x], ((r2t.takeWhile isPyWs).reverse.takeWhile (fun c => c == '\n')).reverse)
        | [] => some (g1, [e], r2t)
    else
      match r2.dropWhile isPyWs with
      | t1 :: trest =>
        some (g1, (t1 :: trest).takeWhile (fun c => c != '\n'),
          (t1 :: trest).drop ((t1 :: trest).takeWhile (fun c => c != '\n')).length)
      | [] =>
        match (r2.takeWhile isPyWs).reverse.dropWhile (fun c => c == '\n') with
        | x :: _ =>
          some (g1, [x], ((r2.takeWhile isPyWs).reverse.takeWhile (fun c => c == '\n')).reverse)
        | [] => none

theorem length_takeWhile_le {p : Char → Bool} (l : List Char) :
    (l.takeWhile p).length ≤ l.length := by
  induction l with
  | nil => simp
  | cons c t ih =>
    by_cases h : p c
    · simp only [List.takeWhile_cons, h, if_true, List.length_cons]
      omega
    · simp [List.takeWhile_cons, h]

theorem takeWhile_reverse_len {p : Char → Bool} (l : List Char) :
    ((l.reverse.takeWhile p).reverse).length ≤ l.length := by
  have h1 : (l.reverse.takeWhile p).length ≤ l.reverse.length := length_takeWhile_le _
  simpa using h1

theorem tryFindAfter_length (g1 r2 : List Char) (a b r : List Char)
    (h : tryFindAfter g1 r2 = some (a, b, r)) : r.length ≤ r2.length := by
  match r2 with
  | [] => exact absurd h (by simp [tryFindAfter])
  | e :: r2t =>
    rw [tryFindAfter] at h
    by_cases he : isColon e
    · rw [if_pos he] at h
      cases hdw : r2t.dropWhile isPyWs with
      | cons t1 trest =>
        rw [hdw] at h
        dsimp only at h
        simp only [Option.some.injEq, Prod.mk.injEq] at h
        have h1 : (t1 :: trest).length ≤ r2t.length := by
          have := length_dropWhile_le (p := isPyWs) r2t
          rw [hdw] at this
          exact this
        rw [← h.2.2]
        simp only [List.length_drop, List.length_cons] at *
        omega
      | nil =>
        rw [hdw] at h
        cases hrev : (r2t.takeWhile isPyWs).reverse.dropWhile (fun c => c == '\n') with
        | cons x xs =>
          rw [hrev] at h
          dsimp only at h
          simp only [Option.some.injEq, Prod.mk.injEq] at h
          have h1 := takeWhile_reverse_len (p := fun c => c == '\n') (r2t.takeWhile isPyWs)
          have h2 : (r2t.takeWhile isPyWs).length ≤ r2t.length := length_takeWhile_le _
          rw [← h.2.2]
          simp only [List.length_cons]
          omega
        | nil =>
          rw [hrev] at h
          dsimp only at h
          simp only [Option.some.injEq, Prod.mk.injEq] at h
          rw [← h.2.2]
          simp
    · rw [if_neg he] at h
      cases hdw : (e :: r2t).dropWhile isPyWs with
      | cons t1 trest =>
        rw [hdw] at h
        dsimp only at h
        simp only [Option.some.injEq, Prod.mk.injEq] at h
        have h1 : (t1 :: trest).length ≤ (e :: r2t).length := by
          have := length_dropWhile_le (p := isPyWs) (e :: r2t)
          rw [hdw] at this
          exact this
        rw [← h.2.2]
        simp only [List.length_drop, List.length_cons] at *
        omega
      | nil =>
        rw [hdw] at h
        cases hrev : ((e :: r2t).takeWhile isPyWs).reverse.dropWhile (fun c => c == '\n') with
        | cons x xs =>
          rw [hrev] at h
          dsimp only at h
          simp only [Option.some.injEq, Prod.mk.injEq] at h
          have h1 := takeWhile_reverse_len (p := fun c => c == '\n') ((e :: r2t).takeWhile isPyWs)
          have h2 : ((e :: r2t).takeWhile isPyWs).length ≤ (e :: r2t).length :=
            length_takeWhile_le _
          rw [← h.2.2]
          simp only [List.length_cons] at *
          omega
        | nil =>
          rw [hrev] at h
          exact absurd h (by simp)

/-- The matcher of the finditer pattern \[(話者\d+|[^\]]+)\][:：]?\s*(.+)
tried at one position: the alternation inside the brackets amounts to the
maximal non-empty run of characters other than the closing bracket (the
backtracking of the first alternative falls through to the second), then the
closing bracket and the tryFindAfter tail. -/
def tryFind : List Char → Option (List Char × List Char × List Char)
  | c :: rest =>
    if c = '[' then
      if (rest.takeWhile (fun d => d != ']')).isEmpty then none
      else
        match rest.dropWhile (fun d => d != ']') with
        | _ :: r2 => tryFindAfter (rest.takeWhile (fun d => d != ']')) r2
        | [] => none
    else none
  | [] => none

theorem tryFind_length (l : List Char) (g1 g2 r : List Char)
    (h : tryFind l = some (g1, g2, r)) : r.length < l.length := by
  match l with
  | [] => exact absurd h (by simp [tryFind])
  | c :: rest =>
    rw [tryFind] at h
    by_cases hc : c = '['
    · rw [if_pos hc] at h
      by_cases hg : (rest.takeWhile (fun d => d != ']')).isEmpty
      · rw [if_pos hg] at h; exact absurd h (by simp)
      · rw [if_neg hg] at h
        cases hdw : rest.dropWhile (fun d => d != ']') with
        | nil => rw [hdw] at h; exact absurd h (by simp)
        | cons b r2 =>
          rw [hdw] at h
          dsimp only at h
          have h1 : r2.length + 1 ≤ rest.length := by
            have := length_dropWhile_le (p := fun d => d != ']') rest
            rw [hdw] at this
            simpa using this
          have h2 := tryFindAfter_length _ r2 g1 g2 r h
          simp only [List.length_cons]
          omega
    · rw [if_neg hc] at h; exact absurd h (by simp)

/-- re.finditer over the content: try a match at every position, left to
right; a successful match is emitted and scanning resumes after it. -/
def findIterFuel : Nat → List Char → List (List Char × List Char)
  | 0, _ => []
  | _ + 1, [] => []
  | fuel + 1, c :: rest =>
    match tryFind (c :: rest) with
    | some (g1, g2, r) => (g1, g2) :: findIterFuel fuel r
    | none => findIterFuel fuel rest

/-- re.finditer of the extraction pattern over the whole content. -/
def findIterAux (s : List Char) : List (List Char × List Char) :=
  findIterFuel s.length s

theorem findIterFuel_irrel :
    ∀ (f1 : Nat) (s : List Char) (f2 : Nat), s.length ≤ f1 → s.length ≤ f2 →
      findIterFuel f1 s = findIterFuel f2 s := by
  intro f1
  induction f1 with
  | zero =>
    intro s f2 h1 _
    have : s = [] := List.eq_nil_of_length_eq_zero (Nat.le_zero.mp h1)
    subst this
    cases f2 <;> rfl
  | succ k ih =>
    intro s f2 h1 h2
    cases s with
    | nil => cases f2 <;> rfl
    | cons c rest =>
      have hf2 : ∃ m, f2 = m + 1 := by
        cases f2 with
        | zero => simp at h2
        | succ m => exact ⟨m, rfl⟩
      obtain ⟨m, rfl⟩ := hf2
      simp only [findIterFuel]
      simp only [List.length_cons] at h1 h2
      cases hm : tryFind (c :: rest) with
      | some gr =>
        obtain ⟨g1, g2, r⟩ := gr
        dsimp only
        have hlt := tryFind_length (c :: rest) g1 g2 r hm
        simp only [List.length_cons] at hlt
        congr 1
        exact ih r m (by omega) (by omega)
      | none =>
        dsimp only
        exact ih rest m (by omega) (by omega)

theorem findIterAux_nil : findIterAux [] = [] := rfl

theorem findIterAux_match (c : Char) (rest : List Char) (g1 g2 r : List Char)
    (hm : tryFind (c :: rest) = some (g1, g2, r)) :
    findIterAux (c :: rest) = (g1, g2) :: findIterAux r := by
  have hlt := tryFind_length (c :: rest) g1 g2 r hm
  show findIterFuel (rest.length + 1) (c :: rest) = _
  simp only [findIterFuel, hm]
  congr 1
  apply findIterFuel_irrel
  · simp only [List.length_cons] at hlt; omega
  · simp

theorem findIterAux_skip (c : Char) (rest : List Char)
    (hm : tryFind (c :: rest) = none) :
    findIterAux (c :: rest) = findIterAux rest := by
  show findIterFuel (rest.length + 1) (c :: rest) = _
  simp only [findIterFuel, hm]
  apply findIterFuel_irrel <;> simp

/-- parse_dialogue of app.py: the dialect rewrites in source order — Speaker
1:/Speaker 2: replacement, both paren-speaker rewrites, full-width digit
conversion, the bare-speaker rewrite, the line-start letter rewrite — then the
finditer extraction, keeping matches whose stripped text is non-empty. -/
def parse_dialogue (content : String) : List Segment :=
  let c1 := replaceAll "Speaker 1:".data "[話者1]:".data content.data
  let c2 := replaceAll "Speaker 2:".data "[話者2]:".data c1
  let c3 := subParen '（' '）' c2
  let c4 := subParen '(' ')' c3
  let c5 := c4.map fixDigit
  let c6 := subBareAux false c5
  let c7 := subLetterAux true c6
  (findIterAux c7).filterMap (fun p =>
    if (pyStrip p.2).isEmpty then none
    else some ⟨(pyStrip p.1).asString, (pyStrip p.2).asString⟩)

/-! ### Dialect-invariance: rendered two-speaker scripts -/

/-- The dialect spellings of a dialogue line that parse_dialogue supports. -/
inductive Dialect
  | canonical
  | speakerStyle
  | bare
  | parenFull
  | parenHalf
deriving DecidableEq

/-- One line of a two-speaker dialogue together with the dialect it is
written in; spk2 false is 話者1, spk2 true is 話者2. -/
structure RLine where
  dialect : Dialect
  spk2 : Bool
  text : List Char
deriving DecidableEq

/-- The speaker digit. -/
def digitOf (b : Bool) : Char := if b then '2' else '1'

/-- The canonical bracket tag [話者N]: with its trailing space. -/
def canonTag (b : Bool) : List Char := ['[', '話', '者', digitOf b, ']', ':', ' ']

/-- Rendering of one line in its dialect, newline-terminated. -/
def renderLine (l : RLine) : List Char :=
  match l.dialect with
  | .canonical => canonTag l.spk2 ++ l.text ++ ['\n']
  | .speakerStyle =>
    ['S', 'p', 'e', 'a', 'k', 'e', 'r', ' ', digitOf l.spk2, ':', ' '] ++ l.text ++ ['\n']
  | .bare => ['話', '者', digitOf l.spk2, ':', ' '] ++ l.text ++ ['\n']
  | .parenFull => ['（', '話', '者', digitOf l.spk2, '）', ':', ' '] ++ l.text ++ ['\n']
  | .parenHalf => ['(', '話', '者', digitOf l.spk2, ')', ':', ' '] ++ l.text ++ ['\n']

/-- The rendered script: the lines in order. -/
def renderScript (ls : List RLine) : List Char := (ls.map renderLine).flatten

/-- The same line in canonical spelling. -/
def canonLine (l : RLine) : RLine := ⟨.canonical, l.spk2, l.text⟩

/-- The same script in canonical spelling. -/
def canonScript (ls : List RLine) : List RLine := ls.map canonLine

/-- A character that can appear in a line's text without touching any rewrite
pattern: not a newline, bracket, paren or colon, and not one of the five
full-width digits the digit conversion rewrites. -/
def plainChar (c : Char) : Bool :=
  !(c == '\n' || c == '[' || c == ']' || c == '（' || c == '）' || c == '(' || c == ')'
    || c == ':' || c == '：' || c == '１' || c == '２' || c == '３' || c == '４' || c == '５')

/-- A well-formed line text: non-empty, made of plain characters, not starting
with whitespace. -/
def wfText (t : List Char) : Bool :=
  !t.isEmpty && t.all plainChar && !(isPyWs (t.headD ' '))

/-- A well-formed rendered script: every line's text is well-formed. -/
def WFScript (ls : List RLine) : Prop := ∀ l ∈ ls, wfText l.text = true

theorem renderScript_cons (l : RLine) (ls : List RLine) :
    renderScript (l :: ls) = renderLine l ++ renderScript ls := by
  simp [renderScript]

/-- A prefix match against a cons list fails when the heads differ. -/
theorem not_isPrefixOf_head_ne (p : Char) (ps : List Char) (c : Char) (l : List Char)
    (h : c ≠ p) : (p :: ps).isPrefixOf (c :: l) = false := by
  simp only [List.isPrefixOf, Bool.and_eq_false_iff]
  left
  simpa using fun heq => h heq.symm

/-- A pattern that contains a colon but no newline cannot match inside a
colon-free plain segment that runs to a newline or the end of input. -/
theorem not_isPrefixOf_plain :
    ∀ (pat u v : List Char), ':' ∈ pat → '\n' ∉ pat →
      (∀ c ∈ u, plainChar c = true) → (v = [] ∨ v.head? = some '\n') →
      pat.isPrefixOf (u ++ v) = false := by
  intro pat
  induction pat with
  | nil => intro u v hc _ _ _; exact absurd hc (List.not_mem_nil _)
  | cons p ps ih =>
    intro u v hc hnl hu hv
    cases u with
    | nil =>
      rcases hv with rfl | hv
      · rfl
      · cases v with
        | nil => rfl
        | cons w ws =>
          have hw : w = '\n' := by simpa using hv
          subst hw
          by_cases hp : p = '\n'
          · exact absurd (hp ▸ List.mem_cons_self p ps) hnl
          · simpa using not_isPrefixOf_head_ne p ps '\n' ws (fun h2 => hp h2.symm)
    | cons c u2 =>
      by_cases hpc : c = p
      · subst hpc
        have hplain := hu c (List.mem_cons_self _ _)
        have hcol : c ≠ ':' := by
          intro h2
          subst h2
          simp [plainChar] at hplain
        have hc2 : ':' ∈ ps := by
          rcases List.mem_cons.mp hc with h2 | h2
          · exact absurd h2.symm hcol
          · exact h2
        have hnl2 : '\n' ∉ ps := fun h2 => hnl (List.mem_cons_of_mem _ h2)
        have := ih u2 v hc2 hnl2 (fun d hd => hu d (List.mem_cons_of_mem _ hd)) hv
        simp [List.isPrefixOf, List.append_eq, this]
      · simpa using not_isPrefixOf_head_ne p ps c (u2 ++ v) hpc

/-- replaceAll copies a segment none of whose characters equals the pattern's
first character. -/
theorem replaceAll_copy_headne (p : Char) (ps rep : List Char) :
    ∀ (u v : List Char), (∀ c ∈ u, c ≠ p) →
      replaceAll (p :: ps) rep (u ++ v) = u ++ replaceAll (p :: ps) rep v := by
  intro u
  induction u with
  | nil => intro v _; rfl
  | cons c u2 ih =>
    intro v hu
    rw [List.cons_append,
      replaceAll_skip _ _ _ _ (by simp) (by
        rw [not_isPrefixOf_head_ne p ps c (u2 ++ v) (hu c (List.mem_cons_self _ _))]
        simp)]
    rw [ih v (fun d hd => hu d (List.mem_cons_of_mem _ hd))]
    rfl

/-- replaceAll copies a colon-free plain segment running to a newline or the
end of input, for a pattern with a colon and no newline. -/
theorem replaceAll_copy_plain (pat rep : List Char) (hpat : pat ≠ [])
    (hc : ':' ∈ pat) (hnl : '\n' ∉ pat) :
    ∀ (u v : List Char), (∀ c ∈ u, plainChar c = true) → (v = [] ∨ v.head? = some '\n') →
      replaceAll pat rep (u ++ v) = u ++ replaceAll pat rep v := by
  intro u
  induction u with
  | nil => intro v _ _; rfl
  | cons c u2 ih =>
    intro v hu hv
    rw [List.cons_append,
      replaceAll_skip _ _ _ _ hpat (by
        rw [show (c :: (u2 ++ v)) = (c :: u2) ++ v from rfl]
        rw [not_isPrefixOf_plain pat (c :: u2) v hc hnl hu hv]
        simp)]
    rw [ih v (fun d hd => hu d (List.mem_cons_of_mem _ hd)) hv]
    rfl

/-- The replace pattern of stage 1/2: Speaker 1: or Speaker 2:. -/
def spkPat (b0 : Bool) : List Char := 'S' :: ['p', 'e', 'a', 'k', 'e', 'r', ' ', digitOf b0, ':']

/-- The replacement of stage 1/2: [話者1]: or [話者2]:. -/
def spkRep (b0 : Bool) : List Char := ['[', '話', '者', digitOf b0, ']', ':']

/-- The per-line effect of stage 1/2 on the script: the Speaker-style line of
the matching speaker becomes canonical. -/
def stepSpeaker (b0 : Bool) (l : RLine) : RLine :=
  if l.dialect = Dialect.speakerStyle ∧ l.spk2 = b0 then canonLine l else l

theorem spkPat_colon (b0 : Bool) : ':' ∈ spkPat b0 := by cases b0 <;> decide

theorem spkPat_nonl (b0 : Bool) : '\n' ∉ spkPat b0 := by cases b0 <;> decide

theorem replaceAll_textnl (p : Char) (ps rep : List Char) (hc : ':' ∈ p :: ps)
    (hnl : '\n' ∉ p :: ps) (text R : List Char) (htext : ∀ c ∈ text, plainChar c = true) :
    replaceAll (p :: ps) rep (text ++ '\n' :: R) = text ++ '\n' :: replaceAll (p :: ps) rep R := by
  rw [replaceAll_copy_plain _ _ (by simp) hc hnl text ('\n' :: R) htext (by simp)]
  congr 1
  rw [show ('\n' :: R) = ['\n'] ++ R from rfl]
  rw [replaceAll_copy_headne p ps rep ['\n'] R (by
    intro c hcm
    have hcn : c = '\n' := by simpa using hcm
    subst hcn
    intro h2
    exact hnl (h2 ▸ List.mem_cons_self _ _))]
  rfl

/-- Stage 1/2 copies any line whose rendering starts with a tag free of the
letter S. -/
theorem replaceSpeaker_line_noS (b0 : Bool) (tag t R : List Char)
    (htag : ∀ c ∈ tag, c ≠ 'S') (htext : ∀ c ∈ t, plainChar c = true) :
    replaceAll (spkPat b0) (spkRep b0) ((tag ++ (t ++ ['\n'])) ++ R)
      = (tag ++ (t ++ ['\n'])) ++ replaceAll (spkPat b0) (spkRep b0) R := by
  rw [List.append_assoc tag (t ++ ['\n']) R]
  rw [show spkPat b0 = 'S' :: ['p', 'e', 'a', 'k', 'e', 'r', ' ', digitOf b0, ':'] from rfl]
  rw [replaceAll_copy_headne _ _ _ tag _ htag]
  rw [show (t ++ ['\n']) ++ R = t ++ '\n' :: R by simp]
  rw [replaceAll_textnl _ _ _ (spkPat_colon b0) (spkPat_nonl b0) t R htext]
  simp

/-- Stage 1/2 rewrites the Speaker-style line of the matching speaker into
the canonical line. -/
theorem replaceSpeaker_line_match (b0 : Bool) (t R : List Char)
    (htext : ∀ c ∈ t, plainChar c = true) :
    replaceAll (spkPat b0) (spkRep b0)
        ((['S', 'p', 'e', 'a', 'k', 'e', 'r', ' ', digitOf b0, ':', ' '] ++ t ++ ['\n']) ++ R)
      = (canonTag b0 ++ t ++ ['\n']) ++ replaceAll (spkPat b0) (spkRep b0) R := by
  have hpre : (spkPat b0).isPrefixOf
      ((['S', 'p', 'e', 'a', 'k', 'e', 'r', ' ', digitOf b0, ':', ' '] ++ t ++ ['\n']) ++ R)
      = true := by
    cases b0 <;> simp [spkPat, List.isPrefixOf, digitOf]
  rw [replaceAll_match _ _ _ (by cases b0 <;> simp [spkPat]) hpre]
  have hdrop : ((['S', 'p', 'e', 'a', 'k', 'e', 'r', ' ', digitOf b0, ':', ' '] ++ t ++ ['\n'])
      ++ R).drop (spkPat b0).length = ' ' :: (t ++ '\n' :: R) := by
    cases b0 <;> simp [spkPat]
  rw [hdrop]
  rw [show spkPat b0 = 'S' :: ['p', 'e', 'a', 'k', 'e', 'r', ' ', digitOf b0, ':'] from rfl]
  rw [show (' ' :: (t ++ '\n' :: R)) = [' '] ++ (t ++ '\n' :: R) from rfl]
  rw [replaceAll_copy_headne _ _ _ [' '] _ (by decide)]
  rw [replaceAll_textnl _ _ _ (spkPat_colon b0) (spkPat_nonl b0) t R htext]
  show spkRep b0 ++ (' ' :: (t ++ '\n' :: replaceAll (spkPat b0) (spkRep b0) R)) = _
  have hct : canonTag b0 = spkRep b0 ++ [' '] := by cases b0 <;> rfl
  rw [hct]
  simp
  rfl

/-- Stage 1/2 copies the Speaker-style line of the other speaker. -/
theorem replaceSpeaker_line_other (b0 b : Bool) (hne : b ≠ b0) (t R : List Char)
    (htext : ∀ c ∈ t, plainChar c = true) :
    replaceAll (spkPat b0) (spkRep b0)
        ((['S', 'p', 'e', 'a', 'k', 'e', 'r', ' ', digitOf b, ':', ' '] ++ t ++ ['\n']) ++ R)
      = (['S', 'p', 'e', 'a', 'k', 'e', 'r', ' ', digitOf b, ':', ' '] ++ t ++ ['\n'])
          ++ replaceAll (spkPat b0) (spkRep b0) R := by
  have hnp : (spkPat b0).isPrefixOf
      ('S' :: (['p', 'e', 'a', 'k', 'e', 'r', ' ', digitOf b, ':', ' '] ++ (t ++ '\n' :: R)))
      = false := by
    cases b0 <;> cases b <;> first
      | exact absurd rfl hne
      | simp [spkPat, List.isPrefixOf, digitOf]
  have hshape : (['S', 'p', 'e', 'a', 'k', 'e', 'r', ' ', digitOf b, ':', ' '] ++ t ++ ['\n'])
      ++ R = 'S' :: (['p', 'e', 'a', 'k', 'e', 'r', ' ', digitOf b, ':', ' ']
        ++ (t ++ '\n' :: R)) := by simp
  rw [hshape]
  rw [replaceAll_skip _ _ _ _ (by cases b0 <;> simp [spkPat]) (by rw [hnp]; simp)]
  rw [show spkPat b0 = 'S' :: ['p', 'e', 'a', 'k', 'e', 'r', ' ', digitOf b0, ':'] from rfl]
  rw [replaceAll_copy_headne _ _ _ ['p', 'e', 'a', 'k', 'e', 'r', ' ', digitOf b, ':', ' '] _
    (by cases b <;> decide)]
  rw [replaceAll_textnl _ _ _ (spkPat_colon b0) (spkPat_nonl b0) t R htext]
  simp

theorem wf_plain (t : List Char) (h : wfText t = true) : ∀ c ∈ t, plainChar c = true := by
  simp only [wfText, Bool.and_eq_true, List.all_eq_true] at h
  exact h.1.2

/-- Stage 1/2 over a whole rendered script. -/
theorem stage_speaker (b0 : Bool) :
    ∀ (ls : List RLine), WFScript ls →
      replaceAll (spkPat b0) (spkRep b0) (renderScript ls)
        = renderScript (ls.map (stepSpeaker b0)) := by
  intro ls h
  induction ls with
  | nil =>
    simp [renderScript, replaceAll_nil]
  | cons l ls ih =>
    have hwf := wf_plain l.text (h l (List.mem_cons_self _ _))
    have hrest := ih (fun x hx => h x (List.mem_cons_of_mem _ hx))
    rw [renderScript_cons, List.map_cons, renderScript_cons]
    obtain ⟨d, b, t⟩ := l
    cases d with
    | canonical =>
      rw [show renderLine ⟨Dialect.canonical, b, t⟩ = canonTag b ++ (t ++ ['\n']) by
        simp [renderLine]]
      rw [replaceSpeaker_line_noS b0 (canonTag b) t _ (by cases b <;> decide) hwf, hrest]
      simp [stepSpeaker, renderLine]
    | bare =>
      rw [show renderLine ⟨Dialect.bare, b, t⟩
          = ['話', '者', digitOf b, ':', ' '] ++ (t ++ ['\n']) by simp [renderLine]]
      rw [replaceSpeaker_line_noS b0 _ t _ (by cases b <;> decide) hwf, hrest]
      simp [stepSpeaker, renderLine]
    | parenFull =>
      rw [show renderLine ⟨Dialect.parenFull, b, t⟩
          = ['（', '話', '者', digitOf b, '）', ':', ' '] ++ (t ++ ['\n']) by simp [renderLine]]
      rw [replaceSpeaker_line_noS b0 _ t _ (by cases b <;> decide) hwf, hrest]
      simp [stepSpeaker, renderLine]
    | parenHalf =>
      rw [show renderLine ⟨Dialect.parenHalf, b, t⟩
          = ['(', '話', '者', digitOf b, ')', ':', ' '] ++ (t ++ ['\n']) by simp [renderLine]]
      rw [replaceSpeaker_line_noS b0 _ t _ (by cases b <;> decide) hwf, hrest]
      simp [stepSpeaker, renderLine]
    | speakerStyle =>
      rw [show renderLine ⟨Dialect.speakerStyle, b, t⟩
          = ['S', 'p', 'e', 'a', 'k', 'e', 'r', ' ', digitOf b, ':', ' '] ++ t ++ ['\n'] by
        simp [renderLine]]
      by_cases hb : b = b0
      · subst hb
        rw [replaceSpeaker_line_match b t _ hwf, hrest]
        simp [stepSpeaker, canonLine, renderLine]
      · rw [replaceSpeaker_line_other b0 b hb t _ hwf, hrest]
        simp [stepSpeaker, hb, renderLine]

theorem plainChar_ne (c x : Char) (h : plainChar c = true) (hx : plainChar x = false) :
    c ≠ x := by
  intro heq
  subst heq
  rw [h] at hx
  exact absurd hx (by simp)

theorem tryParen_none_of_head (po pc : Char) (l : List Char)
    (h : l.head? ≠ some po) : tryParen po pc l = none := by
  match l with
  | [] => rfl
  | [a] => rfl
  | [a, b] => rfl
  | a :: b :: c :: rest =>
    have ha : a ≠ po := by simpa using h
    rw [tryParen, if_neg (by intro hcon; exact ha hcon.1)]

theorem subParen_copy (po pc : Char) :
    ∀ (u v : List Char), (∀ c ∈ u, c ≠ po) →
      subParen po pc (u ++ v) = u ++ subParen po pc v := by
  intro u
  induction u with
  | nil => intro v _; rfl
  | cons c u2 ih =>
    intro v hu
    rw [List.cons_append, subParen_skip po pc c (u2 ++ v)
      (tryParen_none_of_head po pc _ (by simpa using hu c (List.mem_cons_self _ _)))]
    rw [ih v (fun d hd => hu d (List.mem_cons_of_mem _ hd))]
    rfl

/-- The paren matcher on a rendered paren line: it consumes the paren tag with
its colon and space and captures 話者 with the digit. -/
theorem tryParen_paren_line (po pc : Char) (b : Bool) (t v : List Char)
    (hpc : pyDigit pc = false) (hwf : wfText t = true) :
    tryParen po pc (po :: '話' :: '者' :: digitOf b :: pc :: ':' :: ' ' :: (t ++ v))
      = some ('話' :: '者' :: [digitOf b], t ++ v) := by
  obtain ⟨x, xs, rfl, hx⟩ : ∃ x xs, t = x :: xs ∧ isPyWs x = false := by
    cases t with
    | nil => simp [wfText] at hwf
    | cons x xs =>
      refine ⟨x, xs, rfl, ?_⟩
      simp only [wfText, Bool.and_eq_true] at hwf
      simpa using hwf.2
  have hd : pyDigit (digitOf b) = true := by cases b <;> decide
  rw [tryParen, if_pos ⟨rfl, rfl, rfl⟩]
  rw [show List.takeWhile pyDigit (digitOf b :: pc :: ':' :: ' ' :: (x :: xs ++ v))
      = [digitOf b] by
    simp [List.takeWhile_cons, hd, hpc]]
  rw [show List.dropWhile pyDigit (digitOf b :: pc :: ':' :: ' ' :: (x :: xs ++ v))
      = pc :: ':' :: ' ' :: (x :: xs ++ v) by
    simp [List.dropWhile_cons, hd, hpc]]
  simp only [List.isEmpty_cons, Bool.false_eq_true, if_false, if_pos rfl]
  rw [show isColon ':' = true from rfl]
  simp only [if_true]
  rw [show List.dropWhile isPyWs (' ' :: (x :: xs ++ v)) = x :: xs ++ v by
    simp [List.dropWhile_cons, hx, show isPyWs ' ' = true from rfl]]

/-- The paren rewrite passes over a line whose rendering is free of the
opening paren. -/
theorem subParen_line_noPo (po pc : Char) (tag t R : List Char)
    (htag : ∀ c ∈ tag, c ≠ po) (ht : ∀ c ∈ t, c ≠ po) (hnl : '\n' ≠ po) :
    subParen po pc ((tag ++ (t ++ ['\n'])) ++ R)
      = (tag ++ (t ++ ['\n'])) ++ subParen po pc R := by
  apply subParen_copy
  intro c hc
  rcases List.mem_append.mp hc with h1 | h2
  · exact htag c h1
  · rcases List.mem_append.mp h2 with h3 | h4
    · exact ht c h3
    · have : c = '\n' := by simpa using h4
      subst this
      exact hnl

/-- The paren rewrite turns a rendered paren line into the canonical line. -/
theorem subParen_line_match (po pc : Char) (b : Bool) (t R : List Char)
    (hpc : pyDigit pc = false) (hwf : wfText t = true)
    (ht : ∀ c ∈ t, c ≠ po) (hnl : '\n' ≠ po) :
    subParen po pc ((po :: '話' :: '者' :: digitOf b :: pc :: ':' :: ' ' :: (t ++ ['\n'])) ++ R)
      = (canonTag b ++ (t ++ ['\n'])) ++ subParen po pc R := by
  have hshape : (po :: '話' :: '者' :: digitOf b :: pc :: ':' :: ' ' :: (t ++ ['\n'])) ++ R
      = po :: '話' :: '者' :: digitOf b :: pc :: ':' :: ' ' :: (t ++ '\n' :: R) := by simp
  rw [hshape]
  rw [subParen_match po pc _ _ _ (tryParen_paren_line po pc b t ('\n' :: R) hpc hwf)]
  rw [show (t ++ '\n' :: R) = (t ++ ['\n']) ++ R by simp]
  rw [subParen_copy po pc (t ++ ['\n']) R (by
    intro c hc
    rcases List.mem_append.mp hc with h1 | h2
    · exact ht c h1
    · have : c = '\n' := by simpa using h2
      subst this
      exact hnl)]
  cases b <;> simp [canonTag, digitOf]


/-- The per-line effect of stage 3 on the script: full-width paren lines become
canonical. -/
def stepParenFull (l : RLine) : RLine :=
  if l.dialect = Dialect.parenFull then canonLine l else l

/-- Stage 3 over a whole rendered script. -/
theorem stage_parenFull :
    ∀ (ls : List RLine), WFScript ls →
      subParen '（' '）' (renderScript ls) = renderScript (ls.map stepParenFull) := by
  intro ls h
  induction ls with
  | nil => rfl
  | cons l ls ih =>
    have hwft := h l (List.mem_cons_self _ _)
    have hwf := wf_plain l.text hwft
    have hrest := ih (fun x hx => h x (List.mem_cons_of_mem _ hx))
    rw [renderScript_cons, List.map_cons, renderScript_cons]
    obtain ⟨d, b, t⟩ := l
    have ht : ∀ c ∈ t, c ≠ '（' := fun c hc => plainChar_ne c '（' (hwf c hc) (by decide)
    cases d with
    | parenFull =>
      rw [show renderLine ⟨Dialect.parenFull, b, t⟩
          = ('（' :: '話' :: '者' :: digitOf b :: '）' :: ':' :: ' ' :: (t ++ ['\n'])) by
        simp [renderLine]]
      rw [subParen_line_match '（' '）' b t _ (by decide) hwft ht (by decide), hrest]
      simp [stepParenFull, renderLine, canonLine]
    | canonical =>
      rw [show renderLine ⟨Dialect.canonical, b, t⟩ = canonTag b ++ (t ++ ['\n']) by
        simp [renderLine]]
      rw [subParen_line_noPo '（' '）' (canonTag b) t _ (by cases b <;> decide) ht (by decide),
        hrest]
      simp [stepParenFull, renderLine]
    | bare =>
      rw [show renderLine ⟨Dialect.bare, b, t⟩
          = ['話', '者', digitOf b, ':', ' '] ++ (t ++ ['\n']) by simp [renderLine]]
      rw [subParen_line_noPo '（' '）' _ t _ (by cases b <;> decide) ht (by decide), hrest]
      simp [stepParenFull, renderLine]
    | speakerStyle =>
      rw [show renderLine ⟨Dialect.speakerStyle, b, t⟩
          = ['S', 'p', 'e', 'a', 'k', 'e', 'r', ' ', digitOf b, ':', ' '] ++ (t ++ ['\n']) by
        simp [renderLine]]
      rw [subParen_line_noPo '（' '）' _ t _ (by cases b <;> decide) ht (by decide), hrest]
      simp [stepParenFull, renderLine]
    | parenHalf =>
      rw [show renderLine ⟨Dialect.parenHalf, b, t⟩
          = ['(', '話', '者', digitOf b, ')', ':', ' '] ++ (t ++ ['\n']) by
        simp [renderLine]]
      rw [subParen_line_noPo '（' '）' _ t _ (by cases b <;> decide) ht (by decide), hrest]
      simp [stepParenFull, renderLine]

/-- The per-line effect of stage 4 on the script: half-width paren lines become
canonical. -/
def stepParenHalf (l : RLine) : RLine :=
  if l.dialect = Dialect.parenHalf then canonLine l else l

/-- Stage 4 over a whole rendered script. -/
theorem stage_parenHalf :
    ∀ (ls : List RLine), WFScript ls →
      subParen '(' ')' (renderScript ls) = renderScript (ls.map stepParenHalf) := by
  intro ls h
  induction ls with
  | nil => rfl
  | cons l ls ih =>
    have hwft := h l (List.mem_cons_self _ _)
    have hwf := wf_plain l.text hwft
    have hrest := ih (fun x hx => h x (List.mem_cons_of_mem _ hx))
    rw [renderScript_cons, List.map_cons, renderScript_cons]
    obtain ⟨d, b, t⟩ := l
    have ht : ∀ c ∈ t, c ≠ '(' := fun c hc => plainChar_ne c '(' (hwf c hc) (by decide)
    cases d with
    | parenHalf =>
      rw [show renderLine ⟨Dialect.parenHalf, b, t⟩
          = ('(' :: '話' :: '者' :: digitOf b :: ')' :: ':' :: ' ' :: (t ++ ['\n'])) by
        simp [renderLine]]
      rw [subParen_line_match '(' ')' b t _ (by decide) hwft ht (by decide), hrest]
      simp [stepParenHalf, renderLine, canonLine]
    | canonical =>
      rw [show renderLine ⟨Dialect.canonical, b, t⟩ = canonTag b ++ (t ++ ['\n']) by
        simp [renderLine]]
      rw [subParen_line_noPo '(' ')' (canonTag b) t _ (by cases b <;> decide) ht (by decide),
        hrest]
      simp [stepParenHalf, renderLine]
    | bare =>
      rw [show renderLine ⟨Dialect.bare, b, t⟩
          = ['話', '者', digitOf b, ':', ' '] ++ (t ++ ['\n']) by simp [renderLine]]
      rw [subParen_line_noPo '(' ')' _ t _ (by cases b <;> decide) ht (by decide), hrest]
      simp [stepParenHalf, renderLine]
    | speakerStyle =>
      rw [show renderLine ⟨Dialect.speakerStyle, b, t⟩
          = ['S', 'p', 'e', 'a', 'k', 'e', 'r', ' ', digitOf b, ':', ' '] ++ (t ++ ['\n']) by
        simp [renderLine]]
      rw [subParen_line_noPo '(' ')' _ t _ (by cases b <;> decide) ht (by decide), hrest]
      simp [stepParenHalf, renderLine]
    | parenFull =>
      rw [show renderLine ⟨Dialect.parenFull, b, t⟩
          = ['（', '話', '者', digitOf b, '）', ':', ' '] ++ (t ++ ['\n']) by
        simp [renderLine]]
      rw [subParen_line_noPo '(' ')' _ t _ (by cases b <;> decide) ht (by decide), hrest]
      simp [stepParenHalf, renderLine]

theorem plain_fixDigit (c : Char) (h : plainChar c = true) : fixDigit c = c := by
  have h1 : c ≠ '１' := plainChar_ne c '１' h (by decide)
  have h2 : c ≠ '２' := plainChar_ne c '２' h (by decide)
  have h3 : c ≠ '３' := plainChar_ne c '３' h (by decide)
  have h4 : c ≠ '４' := plainChar_ne c '４' h (by decide)
  have h5 : c ≠ '５' := plainChar_ne c '５' h (by decide)
  simp [fixDigit, h1, h2, h3, h4, h5]

theorem map_fixDigit_plain (t : List Char) (ht : ∀ c ∈ t, plainChar c = true) :
    t.map fixDigit = t := by
  induction t with
  | nil => rfl
  | cons c t2 ih =>
    rw [List.map_cons, plain_fixDigit c (ht c (List.mem_cons_self _ _)),
      ih (fun d hd => ht d (List.mem_cons_of_mem _ hd))]

/-- Stage 5 (the full-width digit conversion) leaves a well-formed rendered
script unchanged: the tags use ASCII digits and the texts are plain. -/
theorem stage_digits :
    ∀ (ls : List RLine), WFScript ls →
      (renderScript ls).map fixDigit = renderScript ls := by
  intro ls h
  induction ls with
  | nil => rfl
  | cons l ls ih =>
    have hwf := wf_plain l.text (h l (List.mem_cons_self _ _))
    have hrest := ih (fun x hx => h x (List.mem_cons_of_mem _ hx))
    rw [renderScript_cons, List.map_append, hrest]
    obtain ⟨d, b, t⟩ := l
    have hline : (renderLine ⟨d, b, t⟩).map fixDigit = renderLine ⟨d, b, t⟩ := by
      cases d <;>
        · simp only [renderLine, canonTag, List.map_append]
          rw [map_fixDigit_plain t hwf]
          cases b <;> rfl
    rw [hline]

theorem plain_not_colon (c : Char) (h : plainChar c = true) : isColon c = false := by
  have h1 : c ≠ ':' := plainChar_ne c ':' h (by decide)
  have h2 : c ≠ '：' := plainChar_ne c '：' h (by decide)
  simp [isColon, h1, h2]

theorem tryBare_none_of_head (l : List Char) (h : l.head? ≠ some '話') :
    tryBare l = none := by
  match l with
  | [] => rfl
  | [a] => rfl
  | a :: b :: rest =>
    have ha : a ≠ '話' := by simpa using h
    rw [tryBare, if_neg (by intro hcon; exact ha hcon.1)]

theorem pyDigit_ne_nl (c : Char) (h : pyDigit c = true) : c ≠ '\n' := by
  intro heq
  subst heq
  exact absurd h (by decide)

theorem head_dropWhile_mem_takeWhile :
    ∀ (rest : List Char) (d : Char) (r2 : List Char),
      rest.dropWhile pyDigit = d :: r2 → d ≠ '\n' →
      d ∈ rest.takeWhile (fun c => c != '\n') := by
  intro rest
  induction rest with
  | nil => intro d r2 hd _; simp at hd
  | cons c t ih =>
    intro d r2 hd hne
    by_cases hc : pyDigit c
    · rw [List.dropWhile_cons, if_pos hc] at hd
      rw [List.takeWhile_cons, if_pos (by simpa using pyDigit_ne_nl c hc)]
      exact List.mem_cons_of_mem _ (ih d r2 hd hne)
    · rw [List.dropWhile_cons, if_neg hc] at hd
      obtain ⟨rfl, rfl⟩ : c = d ∧ t = r2 := by
        injection hd with h1 h2
        exact ⟨h1, h2⟩
      rw [List.takeWhile_cons, if_pos (by simpa using hne)]
      exact List.mem_cons_self _ _

/-- The bare matcher fails anywhere in a colon-free stretch running to the end
of the line: its pattern demands a colon right after the digits, and all the
characters it inspects first are on the same line. -/
theorem tryBare_none_noColon (l : List Char)
    (h : ∀ c ∈ l.takeWhile (fun c => c != '\n'), isColon c = false) :
    tryBare l = none := by
  match l with
  | [] => rfl
  | [a] => rfl
  | a :: b :: rest =>
    by_cases hab : a = '話' ∧ b = '者'
    · obtain ⟨rfl, rfl⟩ := hab
      rw [tryBare, if_pos ⟨rfl, rfl⟩]
      by_cases hds : (rest.takeWhile pyDigit).isEmpty
      · rw [if_pos hds]
      · rw [if_neg hds]
        cases hdw : rest.dropWhile pyDigit with
        | nil => rfl
        | cons d r2 =>
          dsimp only
          by_cases hd : isColon d
          · have hdn : d ≠ '\n' := by
              intro heq
              subst heq
              exact absurd hd (by decide)
            have hmem : d ∈ rest.takeWhile (fun c => c != '\n') :=
              head_dropWhile_mem_takeWhile rest d r2 hdw hdn
            have : isColon d = false := by
              apply h
              rw [List.takeWhile_cons, if_pos (by decide)]
              rw [List.takeWhile_cons, if_pos (by decide)]
              exact List.mem_cons_of_mem _ (List.mem_cons_of_mem _ hmem)
            rw [hd] at this
            exact absurd this (by simp)
          · rw [if_neg hd]
    · rw [tryBare, if_neg hab]

theorem takeWhile_plain_boundary (u v : List Char) (hu : ∀ c ∈ u, plainChar c = true)
    (hv : v = [] ∨ v.head? = some '\n') :
    (u ++ v).takeWhile (fun c => c != '\n') = u := by
  induction u with
  | nil =>
    rcases hv with rfl | hv
    · rfl
    · cases v with
      | nil => rfl
      | cons w ws =>
        have : w = '\n' := by simpa using hv
        subst this
        simp [List.takeWhile_cons]
  | cons c u2 ih =>
    rw [List.cons_append, List.takeWhile_cons,
      if_pos (by simpa using plainChar_ne c '\n' (hu c (List.mem_cons_self _ _)) (by decide))]
    rw [ih (fun d hd => hu d (List.mem_cons_of_mem _ hd))]

theorem subBare_copy (v : List Char) (hv : v = [] ∨ v.head? = some '\n') :
    ∀ (u : List Char), u ≠ [] → (∀ c ∈ u, plainChar c = true) → ∀ prev,
      subBareAux prev (u ++ v) = u ++ subBareAux false v := by
  intro u
  induction u with
  | nil => intro h; exact absurd rfl h
  | cons c u2 ih =>
    intro _ hu prev
    have hplc := hu c (List.mem_cons_self _ _)
    have hcb : (c == '[') = false :=
      beq_eq_false_iff_ne.mpr (plainChar_ne c '[' hplc (by decide))
    have hnone : tryBare (c :: (u2 ++ v)) = none := by
      apply tryBare_none_noColon
      rw [show c :: (u2 ++ v) = (c :: u2) ++ v from rfl]
      rw [takeWhile_plain_boundary (c :: u2) v hu hv]
      intro x hx
      exact plain_not_colon x (hu x hx)
    have hstep : ∀ p : Bool, subBareAux p (c :: (u2 ++ v)) = c :: subBareAux false (u2 ++ v) := by
      intro p
      cases p
      · rw [subBareAux_skip c (u2 ++ v) hnone, hcb]
      · rw [subBareAux_lb c (u2 ++ v), hcb]
    cases u2 with
    | nil => exact hstep prev
    | cons c2 u3 =>
      rw [List.cons_append, hstep prev,
        ih (by simp) (fun d hd => hu d (List.mem_cons_of_mem _ hd)) false]
      rfl

theorem wfText_ne_nil (t : List Char) (h : wfText t = true) : t ≠ [] := by
  intro heq
  rw [heq] at h
  simp [wfText] at h

/-- The bare rewrite copies a rendered canonical line: the bracket blocks the
lookbehind at 話, and no colon follows a digit run anywhere else on the line. -/
theorem subBare_line_canonical (b : Bool) (t R : List Char) (hwft : wfText t = true) :
    subBareAux false ((canonTag b ++ (t ++ ['\n'])) ++ R)
      = (canonTag b ++ (t ++ ['\n'])) ++ subBareAux false R := by
  have hwf := wf_plain t hwft
  have htne := wfText_ne_nil t hwft
  rw [show (canonTag b ++ (t ++ ['\n'])) ++ R
      = '[' :: '話' :: '者' :: digitOf b :: ']' :: ':' :: ' ' :: (t ++ '\n' :: R) by
    simp [canonTag]]
  rw [subBareAux_skip _ _ (tryBare_none_of_head _ (by simp))]
  rw [show ('[' == '[') = true from rfl]
  rw [subBareAux_lb]
  rw [show ('話' == '[') = false from rfl]
  rw [subBareAux_skip _ _ (tryBare_none_of_head _ (by simp))]
  rw [show ('者' == '[') = false from rfl]
  rw [subBareAux_skip _ _ (tryBare_none_of_head _ (by cases b <;> simp [digitOf]))]
  rw [show (digitOf b == '[') = false from by cases b <;> rfl]
  rw [subBareAux_skip _ _ (tryBare_none_of_head _ (by simp))]
  rw [show (']' == '[') = false from rfl]
  rw [subBareAux_skip _ _ (tryBare_none_of_head _ (by simp))]
  rw [show (':' == '[') = false from rfl]
  rw [subBareAux_skip _ _ (tryBare_none_of_head _ (by simp))]
  rw [show (' ' == '[') = false from rfl]
  rw [show t ++ '\n' :: R = t ++ ('\n' :: R) from rfl]
  rw [subBare_copy ('\n' :: R) (by simp) t htne hwf false]
  rw [subBareAux_skip _ _ (tryBare_none_of_head _ (by simp))]
  rw [show ('\n' == '[') = false from rfl]
  simp [canonTag]

/-- The bare matcher on a rendered bare line consumes the tag with its colon
and space and captures 話者 with the digit. -/
theorem tryBare_bare_line (b : Bool) (t v : List Char) (hwf : wfText t = true) :
    tryBare ('話' :: '者' :: digitOf b :: ':' :: ' ' :: (t ++ v))
      = some ('話' :: '者' :: [digitOf b], t ++ v) := by
  obtain ⟨x, xs, rfl, hx⟩ : ∃ x xs, t = x :: xs ∧ isPyWs x = false := by
    cases t with
    | nil => simp [wfText] at hwf
    | cons x xs =>
      refine ⟨x, xs, rfl, ?_⟩
      simp only [wfText, Bool.and_eq_true] at hwf
      simpa using hwf.2
  have hd : pyDigit (digitOf b) = true := by cases b <;> decide
  have hpc : pyDigit ':' = false := by decide
  rw [tryBare, if_pos ⟨rfl, rfl⟩]
  rw [show List.takeWhile pyDigit (digitOf b :: ':' :: ' ' :: (x :: xs ++ v)) = [digitOf b] by
    simp [List.takeWhile_cons, hd, hpc]]
  rw [show List.dropWhile pyDigit (digitOf b :: ':' :: ' ' :: (x :: xs ++ v))
      = ':' :: ' ' :: (x :: xs ++ v) by
    simp [List.dropWhile_cons, hd, hpc]]
  simp only [List.isEmpty_cons, Bool.false_eq_true, if_false]
  rw [show isColon ':' = true from rfl]
  simp only [if_true]
  rw [show List.dropWhile isPyWs (' ' :: (x :: xs ++ v)) = x :: xs ++ v by
    simp [List.dropWhile_cons, hx, show isPyWs ' ' = true from rfl]]

/-- The bare rewrite turns a rendered bare line into the canonical line. -/
theorem subBare_line_bare (b : Bool) (t R : List Char) (hwft : wfText t = true) :
    subBareAux false ((['話', '者', digitOf b, ':', ' '] ++ (t ++ ['\n'])) ++ R)
      = (canonTag b ++ (t ++ ['\n'])) ++ subBareAux false R := by
  have hwf := wf_plain t hwft
  have htne := wfText_ne_nil t hwft
  rw [show (['話', '者', digitOf b, ':', ' '] ++ (t ++ ['\n'])) ++ R
      = '話' :: '者' :: digitOf b :: ':' :: ' ' :: (t ++ '\n' :: R) by simp]
  rw [subBareAux_match _ _ _ _ (tryBare_bare_line b t ('\n' :: R) hwft)]
  rw [show t ++ '\n' :: R = t ++ ('\n' :: R) from rfl]
  rw [subBare_copy ('\n' :: R) (by simp) t htne hwf false]
  rw [subBareAux_skip _ _ (tryBare_none_of_head _ (by simp))]
  rw [show ('\n' == '[') = false from rfl]
  simp [canonTag]

/-- The per-line effect of stage 6 on the script: bare lines become
canonical. -/
def stepBare (l : RLine) : RLine :=
  if l.dialect = Dialect.bare then canonLine l else l

/-- Stage 6 over a whole rendered script whose lines are canonical or bare —
which is what stages 1 through 5 leave. -/
theorem stage_bare :
    ∀ (ls : List RLine), WFScript ls →
      (∀ l ∈ ls, l.dialect = Dialect.canonical ∨ l.dialect = Dialect.bare) →
      subBareAux false (renderScript ls) = renderScript (ls.map stepBare) := by
  intro ls h hd
  induction ls with
  | nil => rfl
  | cons l ls ih =>
    have hwft := h l (List.mem_cons_self _ _)
    have hdl := hd l (List.mem_cons_self _ _)
    have hrest := ih (fun x hx => h x (List.mem_cons_of_mem _ hx))
      (fun x hx => hd x (List.mem_cons_of_mem _ hx))
    rw [renderScript_cons, List.map_cons, renderScript_cons]
    obtain ⟨d, b, t⟩ := l
    rcases hdl with hdc | hdb
    · have : d = Dialect.canonical := hdc
      subst this
      rw [show renderLine ⟨Dialect.canonical, b, t⟩ = canonTag b ++ (t ++ ['\n']) by
        simp [renderLine]]
      rw [subBare_line_canonical b t _ hwft, hrest]
      simp [stepBare, renderLine]
    · have : d = Dialect.bare := hdb
      subst this
      rw [show renderLine ⟨Dialect.bare, b, t⟩
          = ['話', '者', digitOf b, ':', ' '] ++ (t ++ ['\n']) by simp [renderLine]]
      rw [subBare_line_bare b t _ hwft, hrest]
      simp [stepBare, renderLine, canonLine]

theorem tryLetter_none (a : Char) (rest : List Char) (ha : isAsciiLetter a = false) :
    tryLetter (a :: rest) = none := by
  cases rest with
  | nil => rfl
  | cons b r =>
    rw [tryLetter, if_neg]
    intro hcon
    rw [ha] at hcon
    exact absurd hcon.1 (by simp)

theorem subLetter_copy (v : List Char) :
    ∀ (u : List Char), (∀ c ∈ u, c ≠ '\n') →
      subLetterAux false (u ++ v) = u ++ subLetterAux false v := by
  intro u
  induction u with
  | nil => intro _; rfl
  | cons c u2 ih =>
    intro hu
    have hcb : (c == '\n') = false :=
      beq_eq_false_iff_ne.mpr (hu c (List.mem_cons_self _ _))
    rw [List.cons_append, subLetterAux_inner, hcb,
      ih (fun d hd => hu d (List.mem_cons_of_mem _ hd))]
    rfl

/-- Stage 7 copies a rendered canonical line: every line start is an opening
bracket, which is not a letter, so the MULTILINE pattern never fires. -/
theorem subLetter_line (b : Bool) (t R : List Char) (hwf : ∀ c ∈ t, plainChar c = true) :
    subLetterAux true ((canonTag b ++ (t ++ ['\n'])) ++ R)
      = (canonTag b ++ (t ++ ['\n'])) ++ subLetterAux true R := by
  rw [show (canonTag b ++ (t ++ ['\n'])) ++ R
      = '[' :: (('話' :: '者' :: digitOf b :: ']' :: ':' :: [' '] ++ t) ++ ('\n' :: R)) by
    simp [canonTag]]
  rw [subLetterAux_skip _ _ (tryLetter_none '[' _ (by decide))]
  rw [show ('[' == '\n') = false from rfl]
  rw [subLetter_copy ('\n' :: R) (('話' :: '者' :: digitOf b :: ']' :: ':' :: [' '] ++ t)) (by
    intro c hc
    rw [show ('話' :: '者' :: digitOf b :: ']' :: ':' :: [' '] ++ t)
        = ['話', '者', digitOf b, ']', ':', ' '] ++ t from rfl] at hc
    rcases List.mem_append.mp hc with h1 | h2
    · have : c ∈ ['話', '者', digitOf b, ']', ':', ' '] := h1
      have hne : ∀ x ∈ ['話', '者', digitOf b, ']', ':', ' '], x ≠ '\n' := by
        cases b <;> decide
      exact hne c this
    · exact plainChar_ne c '\n' (hwf c h2) (by decide))]
  rw [subLetterAux_inner]
  rw [show ('\n' == '\n') = true from rfl]
  simp [canonTag]

/-- Stage 7 leaves a rendered all-canonical script unchanged. -/
theorem stage_letter :
    ∀ (ls : List RLine), WFScript ls →
      (∀ l ∈ ls, l.dialect = Dialect.canonical) →
      subLetterAux true (renderScript ls) = renderScript ls := by
  intro ls h hd
  induction ls with
  | nil => rfl
  | cons l ls ih =>
    have hwf := wf_plain l.text (h l (List.mem_cons_self _ _))
    have hdl := hd l (List.mem_cons_self _ _)
    have hrest := ih (fun x hx => h x (List.mem_cons_of_mem _ hx))
      (fun x hx => hd x (List.mem_cons_of_mem _ hx))
    rw [renderScript_cons]
    obtain ⟨d, b, t⟩ := l
    have : d = Dialect.canonical := hdl
    subst this
    rw [show renderLine ⟨Dialect.canonical, b, t⟩ = canonTag b ++ (t ++ ['\n']) by
      simp [renderLine]]
    rw [subLetter_line b t _ hwf, hrest]

/-- The full per-line effect of the normalization cascade: every supported
dialect becomes the canonical line. -/
theorem steps_canonical (l : RLine) :
    stepBare (stepParenHalf (stepParenFull (stepSpeaker true (stepSpeaker false l))))
      = canonLine l := by
  obtain ⟨d, b, t⟩ := l
  cases d <;> cases b <;>
    simp [stepSpeaker, stepParenFull, stepParenHalf, stepBare, canonLine]

theorem WFScript_map (f : RLine → RLine) (hf : ∀ l, (f l).text = l.text)
    (ls : List RLine) (h : WFScript ls) : WFScript (ls.map f) := by
  intro x hx
  rcases List.mem_map.mp hx with ⟨l, hl, rfl⟩
  rw [hf l]
  exact h l hl

theorem stepSpeaker_text (b0 : Bool) (l : RLine) : (stepSpeaker b0 l).text = l.text := by
  simp only [stepSpeaker]
  split <;> rfl

theorem stepParenFull_text (l : RLine) : (stepParenFull l).text = l.text := by
  simp only [stepParenFull]
  split <;> rfl

theorem stepParenHalf_text (l : RLine) : (stepParenHalf l).text = l.text := by
  simp only [stepParenHalf]
  split <;> rfl

theorem stepBare_text (l : RLine) : (stepBare l).text = l.text := by
  simp only [stepBare]
  split <;> rfl

theorem dialect_after_parens (l : RLine) :
    (stepParenHalf (stepParenFull (stepSpeaker true (stepSpeaker false l)))).dialect
        = Dialect.canonical
      ∨ (stepParenHalf (stepParenFull (stepSpeaker true (stepSpeaker false l)))).dialect
        = Dialect.bare := by
  obtain ⟨d, b, t⟩ := l
  cases d <;> cases b <;>
    simp [stepSpeaker, stepParenFull, stepParenHalf, canonLine]

/-- The normalization cascade of parse_dialogue maps any well-formed rendered
script to the rendering of its canonical spelling. -/
theorem pipeline_render (ls : List RLine) (h : WFScript ls) :
    subLetterAux true (subBareAux false ((subParen '(' ')' (subParen '（' '）'
        (replaceAll "Speaker 2:".data "[話者2]:".data
          (replaceAll "Speaker 1:".data "[話者1]:".data (renderScript ls))))).map fixDigit))
      = renderScript (canonScript ls) := by
  have e1 : "Speaker 1:".data = spkPat false := rfl
  have e2 : "[話者1]:".data = spkRep false := rfl
  have e3 : "Speaker 2:".data = spkPat true := rfl
  have e4 : "[話者2]:".data = spkRep true := rfl
  rw [e1, e2, e3, e4]
  rw [stage_speaker false ls h]
  have h1 : WFScript (ls.map (stepSpeaker false)) :=
    WFScript_map _ (stepSpeaker_text false) ls h
  rw [stage_speaker true _ h1]
  have h2 : WFScript ((ls.map (stepSpeaker false)).map (stepSpeaker true)) :=
    WFScript_map _ (stepSpeaker_text true) _ h1
  rw [stage_parenFull _ h2]
  have h3 : WFScript (((ls.map (stepSpeaker false)).map (stepSpeaker true)).map stepParenFull) :=
    WFScript_map _ stepParenFull_text _ h2
  rw [stage_parenHalf _ h3]
  have h4 : WFScript ((((ls.map (stepSpeaker false)).map (stepSpeaker true)).map
      stepParenFull).map stepParenHalf) :=
    WFScript_map _ stepParenHalf_text _ h3
  rw [stage_digits _ h4]
  have hdia : ∀ l ∈ (((ls.map (stepSpeaker false)).map (stepSpeaker true)).map
      stepParenFull).map stepParenHalf,
      l.dialect = Dialect.canonical ∨ l.dialect = Dialect.bare := by
    intro x hx
    simp only [List.map_map, List.mem_map] at hx
    rcases hx with ⟨l, _, rfl⟩
    exact dialect_after_parens l
  rw [stage_bare _ h4 hdia]
  have h5 : WFScript (((((ls.map (stepSpeaker false)).map (stepSpeaker true)).map
      stepParenFull).map stepParenHalf).map stepBare) :=
    WFScript_map _ stepBare_text _ h4
  have hcanon : ((((ls.map (stepSpeaker false)).map (stepSpeaker true)).map
      stepParenFull).map stepParenHalf).map stepBare = canonScript ls := by
    simp only [List.map_map, canonScript]
    apply List.map_congr_left
    intro l _
    exact steps_canonical l
  rw [hcanon]
  apply stage_letter (canonScript ls) (WFScript_map canonLine (fun l => rfl) ls h)
  intro x hx
  rcases List.mem_map.mp hx with ⟨l, _, rfl⟩
  rfl

/-- Claim C1: for every well-formed two-speaker dialogue script, parsing the
text written in any mix of the supported dialect spellings — Speaker N:, bare
話者N:, parenthesized （話者N）/(話者N), or canonical bracket [話者N]: —
yields the same segment list as parsing the canonical-bracket version: the
same speakers, the same texts, in the same order. -/
theorem claim_C1_dialect_invariance (ls : List RLine) (h : WFScript ls) :
    parse_dialogue (String.mk (renderScript ls))
      = parse_dialogue (String.mk (renderScript (canonScript ls))) := by
  have hcc : WFScript (canonScript ls) := by
    intro x hx
    rcases List.mem_map.mp hx with ⟨l, hl, rfl⟩
    exact h l hl
  have hp1 := pipeline_render ls h
  have hp2 := pipeline_render (canonScript ls) hcc
  have hccc : canonScript (canonScript ls) = canonScript ls := by
    simp only [canonScript, List.map_map]
    apply List.map_congr_left
    intro l _
    rfl
  rw [hccc] at hp2
  simp only [parse_dialogue]
  have hp1x : subLetterAux true (subBareAux false (List.map fixDigit
      (subParen '(' ')' (subParen '（' '）'
        (replaceAll ['S', 'p', 'e', 'a', 'k', 'e', 'r', ' ', '2', ':']
            ['[', '話', '者', '2', ']', ':']
          (replaceAll ['S', 'p', 'e', 'a', 'k', 'e', 'r', ' ', '1', ':']
              ['[', '話', '者', '1', ']', ':']
            (renderScript ls)))))))
      = renderScript (canonScript ls) := hp1
  have hp2x : subLetterAux true (subBareAux false (List.map fixDigit
      (subParen '(' ')' (subParen '（' '）'
        (replaceAll ['S', 'p', 'e', 'a', 'k', 'e', 'r', ' ', '2', ':']
            ['[', '話', '者', '2', ']', ':']
          (replaceAll ['S', 'p', 'e', 'a', 'k', 'e', 'r', ' ', '1', ':']
              ['[', '話', '者', '1', ']', ':']
            (renderScript (canonScript ls))))))))
      = renderScript (canonScript ls) := hp2
  rw [hp1x, hp2x]

/-- The concrete mixed-dialect script of the claim C1 witness: one line per
supported dialect spelling. -/
def witnessScript : List RLine :=
  [⟨Dialect.speakerStyle, false, "hello".data⟩,
   ⟨Dialect.bare, true, "yo".data⟩,
   ⟨Dialect.parenFull, false, "こんにちは".data⟩,
   ⟨Dialect.parenHalf, true, "ok".data⟩,
   ⟨Dialect.canonical, false, "bye".data⟩]

/-- Witness for claim C1 at a concrete mixed-dialect script. -/
theorem claim_C1_dialect_invariance_witness :
    parse_dialogue (String.mk (renderScript witnessScript))
      = parse_dialogue (String.mk (renderScript (canonScript witnessScript))) :=
  claim_C1_dialect_invariance witnessScript (by
    intro l hl
    fin_cases hl <;> decide)

end Kikuo
